import Mathlib

/-!
# Candy-run search: serial reference loop and OpenMP work-sharing variant

Shallow embedding of `Serial_Solution.cpp` and `OpenMP_Solution.cpp`.

* A C++ `int` holding a candy amount is an `Int` together with 32-bit two's-complement
  wrap-around (`wrap32`) on every addition and subtraction of `curr_candy`; comparisons
  are those of the held values. The sentinel `-1` is representable in every field of a
  solution.
* `homes` and loop indices that only ever count upwards from `0` are `Nat`;
  the comparison `curr_idx < homes-1` and the rollback `curr_idx--` are
  carried out in `Int`, exactly as the signed C++ arithmetic does. Indices never
  leave the range of the vector, so they are not wrapped.
* The parallel region is an interleaving semantics: one `step` is one shared
  memory access of one thread (the load of `stop`, the atomic capture of `idx`,
  the store to `stop`), together with the thread-private code around it. A
  schedule is the list of thread ids in the order in which they act; a thread
  that has left the loop, or an id outside the team, does nothing.
* The window expander of the specification, in exact arithmetic, is kept as a second
  definition (`solutionExact`); it agrees with the program when no total can exceed
  the 32-bit range (`solution_i_eq_exact`).
-/

namespace CandySearch

/-! ## Data model -/

/-- The three-element vector `{max_possible_candy, starting_index, finishing_index}`
(`solution[0]`, `solution[1]`, `solution[2]` in the source). -/
structure Solution where
  sum : Int
  start : Int
  finish : Int
deriving DecidableEq, Repr

/-- The initial value `{-1, -1, -1}` of `solution_final`, `best_solution` and of
every slot of `thread_solutions`. -/
def noSolution : Solution := ⟨-1, -1, -1⟩

/-- Unchecked read `pieces[k]` (a read outside the vector yields `0` here). -/
def pieceAt (pieces : List Int) (k : Nat) : Int := pieces.getD k 0

/-! ## 32-bit arithmetic on `curr_candy` -/

/-- The value a 32-bit two's-complement `int` holds for the exact result `x`. -/
def wrap32 (x : Int) : Int := (x + 2147483648) % 4294967296 - 2147483648

/-! ## Window expansion (`Serial_Solution.cpp` 40-59, `OpenMP_Solution.cpp` 72-91) -/

/-- The loop `while (curr_candy <= max && curr_idx < homes-1) { curr_idx++;
curr_candy += pieces[curr_idx]; }` on 32-bit `curr_candy`, returning the final
`(curr_candy, curr_idx)`. The first argument bounds the number of iterations;
`expandLoop_exit` shows that the bound `homes` used by `solution_i` is never exhausted:
the loop leaves through its own condition. -/
def expandLoop (max : Int) (pieces : List Int) (homes : Nat) : Nat → Int → Nat → Int × Nat
  | 0, curr_candy, curr_idx => (curr_candy, curr_idx)
  | fuel + 1, curr_candy, curr_idx =>
    if curr_candy ≤ max ∧ (curr_idx : Int) < (homes : Int) - 1 then
      expandLoop max pieces homes fuel (wrap32 (curr_candy + pieceAt pieces (curr_idx + 1)))
        (curr_idx + 1)
    else (curr_candy, curr_idx)

/-- The value of `solution_i` computed for start index `i`, the rollback
`curr_candy -= pieces[curr_idx]` included. -/
def solution_i (homes : Nat) (max : Int) (pieces : List Int) (i : Nat) : Solution :=
  if pieceAt pieces i > max then noSolution
  else
    let r := expandLoop max pieces homes homes (pieceAt pieces i) i
    if r.1 > max then ⟨wrap32 (r.1 - pieceAt pieces r.2), i, (r.2 : Int) - 1⟩
    else ⟨r.1, i, r.2⟩

/-! ## Serial search (`Serial_Solution.cpp` 37-65) -/

/-- Body of `for (int i=0; i<pieces.size(); i++)` over the remaining indices, with
the `break` on `solution_i[0] == max` and the strict-greater update. -/
def serialLoop (homes : Nat) (max : Int) (pieces : List Int) : List Nat → Solution → Solution
  | [], solution_final => solution_final
  | i :: rest, solution_final =>
    if (solution_i homes max pieces i).sum = max then solution_i homes max pieces i
    else
      serialLoop homes max pieces rest
        (if (solution_i homes max pieces i).sum > solution_final.sum then solution_i homes max pieces i
         else solution_final)

/-- The final `solution_final` of the serial program. -/
def serial (homes : Nat) (max : Int) (pieces : List Int) : Solution :=
  serialLoop homes max pieces (List.range pieces.length) noSolution

/-! ## Global reduction (`OpenMP_Solution.cpp` 102-113) -/

/-- One iteration of `for (std::vector<int>& solution : thread_solutions)`. -/
def reduceStep (best_solution solution : Solution) : Solution :=
  if solution.sum ≥ best_solution.sum then
    if solution.sum = best_solution.sum ∧ solution.start < best_solution.start then solution
    else if solution.sum > best_solution.sum then solution
    else best_solution
  else best_solution

/-- The final `best_solution` for the given slots. -/
def best_solution (thread_solutions : List Solution) : Solution :=
  thread_solutions.foldl reduceStep noSolution

/-! ## Parallel region (`OpenMP_Solution.cpp` 54-100) -/

/-- Control point of one thread inside `while (true)`. -/
inductive Pc
  /-- About to execute `if (stop.load(...)) break;` (line 65). -/
  | check
  /-- About to execute the atomic capture `i = idx++` and `if (i >= homes) break;`. -/
  | claim
  /-- Holding `i < homes`: about to compute `solution_i` and, on `solution_i[0] == max`,
  overwrite `solution_final` and store `stop` (lines 72-95). -/
  | eval (i : Nat)
  /-- About to execute the conditional assignment of line 96. -/
  | update (i : Nat) (sol : Solution)
  /-- Left the loop; the slot holds the thread's final value (line 98). -/
  | done
deriving DecidableEq, Repr

/-- One thread: its control point and `solution_final`, which is a reference to the
thread's slot `thread_solutions[thread_id]`. -/
structure Worker where
  pc : Pc
  solution_final : Solution
deriving DecidableEq, Repr

/-- Shared state of the parallel region. `claimed` is a history variable: the
`(thread_id, i)` pairs of the captures that passed `i < homes`, oldest first. -/
structure State where
  idx : Nat
  stop : Bool
  workers : Nat → Worker
  claimed : List (Nat × Nat)

/-- State before `#pragma omp parallel`. -/
def initState : State := ⟨0, false, fun _ => ⟨Pc.check, noSolution⟩, []⟩

/-- Thread `t` of a team of `team` threads performs its next action. -/
def step (homes : Nat) (max : Int) (pieces : List Int) (team : Nat) (t : Nat) (s : State) : State :=
  if t < team then
    match (s.workers t).pc with
    | Pc.check =>
      if s.stop then
        { s with workers := Function.update s.workers t ⟨Pc.done, (s.workers t).solution_final⟩ }
      else
        { s with workers := Function.update s.workers t ⟨Pc.claim, (s.workers t).solution_final⟩ }
    | Pc.claim =>
      if s.idx ≥ homes then
        { s with
          idx := s.idx + 1
          workers := Function.update s.workers t ⟨Pc.done, (s.workers t).solution_final⟩ }
      else
        { s with
          idx := s.idx + 1
          workers := Function.update s.workers t ⟨Pc.eval s.idx, (s.workers t).solution_final⟩
          claimed := s.claimed ++ [(t, s.idx)] }
    | Pc.eval i =>
      if (solution_i homes max pieces i).sum = max then
        { s with
          stop := true
          workers := Function.update s.workers t
            ⟨Pc.update i (solution_i homes max pieces i), solution_i homes max pieces i⟩ }
      else
        { s with
          workers := Function.update s.workers t
            ⟨Pc.update i (solution_i homes max pieces i), (s.workers t).solution_final⟩ }
    | Pc.update _ sol =>
      { s with
        workers := Function.update s.workers t
          ⟨Pc.check,
            if sol.sum > (s.workers t).solution_final.sum then sol
            else (s.workers t).solution_final⟩ }
    | Pc.done => s
  else s

/-- The state after the threads named by `sched` have acted, one action each, in order. -/
def run (homes : Nat) (max : Int) (pieces : List Int) (team : Nat) (sched : List Nat) (s : State) :
    State :=
  sched.foldl (fun s t => step homes max pieces team t s) s

/-- Every thread of the team has left the parallel region. -/
def finished (team : Nat) (s : State) : Prop :=
  ∀ t, t < team → (s.workers t).pc = Pc.done

instance (team : Nat) (s : State) : Decidable (finished team s) := by
  unfold finished; infer_instance

/-- The slots `thread_solutions[0 .. num_threads-1]` read after the join. -/
def thread_solutions (num_threads : Nat) (s : State) : List Solution :=
  (List.range num_threads).map fun t => (s.workers t).solution_final

/-- Final answer of the OpenMP program. -/
def parallelAnswer (num_threads : Nat) (s : State) : Solution :=
  best_solution (thread_solutions num_threads s)

/-! ## Bounds-checked evaluation

The same code with every read `pieces[k]` checked against the vector and the loop
driven by an explicit iteration budget, so that a read outside the vector and a loop
that does not leave through its condition are both visible as faults. -/

/-- Ways the checked evaluation can fail. -/
inductive Fault
  /-- A read `pieces[k]` with `k` outside `0 .. pieces.size()-1`. -/
  | outOfBounds
  /-- The iteration budget ran out while the loop condition was still true. -/
  | outOfFuel
deriving DecidableEq, Repr

/-- Checked read `pieces[k]`. -/
def readPiece (pieces : List Int) (k : Nat) : Except Fault Int :=
  match pieces[k]? with
  | some p => Except.ok p
  | none => Except.error Fault.outOfBounds

/-- The expansion loop with checked reads and an iteration budget. -/
def expandLoopChecked (max : Int) (pieces : List Int) (homes : Nat) :
    Nat → Int → Nat → Except Fault (Int × Nat)
  | 0, curr_candy, curr_idx =>
    if curr_candy ≤ max ∧ (curr_idx : Int) < (homes : Int) - 1 then Except.error Fault.outOfFuel
    else Except.ok (curr_candy, curr_idx)
  | fuel + 1, curr_candy, curr_idx =>
    if curr_candy ≤ max ∧ (curr_idx : Int) < (homes : Int) - 1 then
      match readPiece pieces (curr_idx + 1) with
      | Except.ok p =>
        expandLoopChecked max pieces homes fuel (wrap32 (curr_candy + p)) (curr_idx + 1)
      | Except.error e => Except.error e
    else Except.ok (curr_candy, curr_idx)

/-- The computation of `solution_i` with checked reads: the initial `pieces[i]`, the
reads inside the loop and the read of the rollback. -/
def solution_i_checked (fuel homes : Nat) (max : Int) (pieces : List Int) (i : Nat) :
    Except Fault Solution :=
  match readPiece pieces i with
  | Except.error e => Except.error e
  | Except.ok first =>
    if first > max then Except.ok noSolution
    else
      match expandLoopChecked max pieces homes fuel first i with
      | Except.error e => Except.error e
      | Except.ok r =>
        if r.1 > max then
          match readPiece pieces r.2 with
          | Except.ok last => Except.ok ⟨wrap32 (r.1 - last), i, (r.2 : Int) - 1⟩
          | Except.error e => Except.error e
        else Except.ok ⟨r.1, i, r.2⟩

/-- The serial loop over checked expansions. -/
def serialLoopChecked (fuel homes : Nat) (max : Int) (pieces : List Int) :
    List Nat → Solution → Except Fault Solution
  | [], solution_final => Except.ok solution_final
  | i :: rest, solution_final =>
    match solution_i_checked fuel homes max pieces i with
    | Except.error e => Except.error e
    | Except.ok sol =>
      if sol.sum = max then Except.ok sol
      else
        serialLoopChecked fuel homes max pieces rest
          (if sol.sum > solution_final.sum then sol else solution_final)

/-- The serial program over checked expansions. -/
def serialChecked (fuel homes : Nat) (max : Int) (pieces : List Int) : Except Fault Solution :=
  serialLoopChecked fuel homes max pieces (List.range pieces.length) noSolution

/-! ## Specification vocabulary -/

/-- Total `pieces[s] + ... + pieces[e]` of the run of houses `s..e`. -/
def runSum (pieces : List Int) (s e : Nat) : Int :=
  ((pieces.drop s).take (e + 1 - s)).sum

/-- Legal input: `len(pieces) = homes`, every piece non-negative, `max` non-negative. -/
def Legal (homes : Nat) (max : Int) (pieces : List Int) : Prop :=
  pieces.length = homes ∧ (∀ p ∈ pieces, 0 ≤ p) ∧ 0 ≤ max

instance (homes : Nat) (max : Int) (pieces : List Int) : Decidable (Legal homes max pieces) := by
  unfold Legal; infer_instance

/-- No total can leave the 32-bit range: `max` plus the largest piece (any bound `B` on
the pieces) is below `2^31`. -/
def NoOverflow (max : Int) (pieces : List Int) : Prop :=
  ∃ B : Int, (∀ p, p ∈ pieces → p ≤ B) ∧ max + B < 2147483648

/-- The expansion loop of the specification's window expander: the same loop in exact
arithmetic. -/
def expandLoopExact (max : Int) (pieces : List Int) (homes : Nat) : Nat → Int → Nat → Int × Nat
  | 0, curr_candy, curr_idx => (curr_candy, curr_idx)
  | fuel + 1, curr_candy, curr_idx =>
    if curr_candy ≤ max ∧ (curr_idx : Int) < (homes : Int) - 1 then
      expandLoopExact max pieces homes fuel (curr_candy + pieceAt pieces (curr_idx + 1))
        (curr_idx + 1)
    else (curr_candy, curr_idx)

/-- The window expander of the specification (`expand(start, pieces, max)`): the
computation of `solution_i` in exact arithmetic. -/
def solutionExact (homes : Nat) (max : Int) (pieces : List Int) (i : Nat) : Solution :=
  if pieceAt pieces i > max then noSolution
  else
    let r := expandLoopExact max pieces homes homes (pieceAt pieces i) i
    if r.1 > max then ⟨r.1 - pieceAt pieces r.2, i, (r.2 : Int) - 1⟩
    else ⟨r.1, i, r.2⟩

/-- The solution `r` is the first best expansion among the start indices below `n`:
the sentinel when no start below `n` has a candidate with a non-negative sum, and
otherwise `solution_i` of the least start whose sum is the largest. -/
def FirstBest (homes : Nat) (max : Int) (pieces : List Int) (n : Nat) (r : Solution) : Prop :=
  (r = noSolution ∧ ∀ j, j < n → (solution_i homes max pieces j).sum < 0) ∨
  (∃ w, w < n ∧ r = solution_i homes max pieces w ∧ 0 ≤ r.sum ∧
    (∀ j, j < n → (solution_i homes max pieces j).sum ≤ r.sum) ∧
    (∀ j, j < w → (solution_i homes max pieces j).sum < r.sum))

/-- The solution `r` is an answer of the search: the result of the serial program, or
the result of the OpenMP program after some complete execution of a team of at least
one thread that fits the allocated slots. -/
def IsSearchAnswer (homes : Nat) (max : Int) (pieces : List Int) (r : Solution) : Prop :=
  r = serial homes max pieces ∨
  ∃ team num_threads sched, 1 ≤ team ∧ team ≤ num_threads ∧
    finished team (run homes max pieces team sched initState) ∧
    r = parallelAnswer num_threads (run homes max pieces team sched initState)

/-- The order the global reduction maximises: `a` has the larger sum, or the same sum
and a start index that is not larger. -/
def AtLeastAsGood (a b : Solution) : Prop :=
  b.sum < a.sum ∨ (b.sum = a.sum ∧ a.start ≤ b.start)

/-! ## Invariants of the parallel region -/

/-- A strict upper bound on the start indices a thread has finished with. -/
def Pc.bound (idx : Nat) : Pc → Nat
  | Pc.eval i => i
  | Pc.update i _ => i + 1
  | _ => idx

/-- What holds of thread `t` whenever the shared cursor is `idx` and the flag is `stop`. -/
structure WorkerInv (homes : Nat) (max : Int) (pieces : List Int) (team idx : Nat) (stop : Bool)
    (t : Nat) (w : Worker) : Prop where
  idle : team ≤ t → w = ⟨Pc.check, noSolution⟩
  origin : w.solution_final = noSolution ∨
    ∃ i, i < homes ∧ i < w.pc.bound idx ∧ w.solution_final = solution_i homes max pieces i
  evalPc : ∀ i, w.pc = Pc.eval i → i < idx ∧ i < homes
  updatePc : ∀ i sol, w.pc = Pc.update i sol →
    i < idx ∧ i < homes ∧ sol = solution_i homes max pieces i ∧
      (sol.sum = max → w.solution_final = sol)
  hitStop : w.solution_final.sum = max →
    stop = true ∧ w.pc ≠ Pc.claim ∧ ∀ i, w.pc ≠ Pc.eval i
  doneWhy : w.pc = Pc.done → stop = true ∨ homes < idx

/-- Invariant of every state of the parallel region. -/
structure Inv (homes : Nat) (max : Int) (pieces : List Int) (team : Nat) (s : State) : Prop where
  workers : ∀ t, WorkerInv homes max pieces team s.idx s.stop t (s.workers t)
  stopHit : s.stop = true →
    ∃ j, j < s.idx ∧ j < homes ∧ (solution_i homes max pieces j).sum = max
  claimedIdx : s.claimed.map Prod.snd = List.range (min s.idx homes)
  claimedBy : ∀ p, p ∈ s.claimed → p.1 < team

/-- Remaining actions of a thread within one pass of its loop body. -/
def Pc.phase : Pc → Nat
  | Pc.check => 2
  | Pc.claim => 1
  | Pc.eval _ => 4
  | Pc.update _ _ => 3
  | Pc.done => 0

/-- A number of actions after which thread `t`, scheduled alone, has left the loop. -/
def remaining (homes : Nat) (s : State) (t : Nat) : Nat :=
  4 * (homes - s.idx) + (s.workers t).pc.phase

/-- Where the start index `w` currently is: not handed out yet, held by a thread of
the team, or recorded as some thread's `solution_final`. -/
def Tracks (homes : Nat) (max : Int) (pieces : List Int) (team w : Nat) (s : State) : Prop :=
  s.idx ≤ w ∨
  (∃ t, t < team ∧ ((s.workers t).pc = Pc.eval w ∨ ∃ sol, (s.workers t).pc = Pc.update w sol)) ∨
  (∃ t, t < team ∧ (s.workers t).solution_final = solution_i homes max pieces w)

/-- No thread ever holds a candidate with a negative sum as its `solution_final`. -/
def BestNonneg (s : State) : Prop :=
  ∀ t, (s.workers t).solution_final = noSolution ∨ 0 ≤ (s.workers t).solution_final.sum

/-! ## Exhaustive search (the serial loop without its `break`) -/

/-- The loop over the remaining start indices that only applies the strict-greater
update of line 64 and never breaks. -/
def exhaustiveLoop (homes : Nat) (max : Int) (pieces : List Int) : List Nat → Solution → Solution
  | [], solution_final => solution_final
  | i :: rest, solution_final =>
    exhaustiveLoop homes max pieces rest
      (if (solution_i homes max pieces i).sum > solution_final.sum then solution_i homes max pieces i
       else solution_final)

/-- Exhaustive evaluation of all start indices. -/
def exhaustive (homes : Nat) (max : Int) (pieces : List Int) : Solution :=
  exhaustiveLoop homes max pieces (List.range pieces.length) noSolution

/-! ## One thread's own sequence of start indices -/

/-- The start indices claimed by thread `t` so far, in claim order. -/
def threadClaims (s : State) (t : Nat) : List Nat :=
  (s.claimed.filter (fun p => decide (p.1 = t))).map Prod.snd

/-- The solution `r` is the first best expansion over the start indices in `seq`: the
sentinel when none of them has a candidate with a non-negative sum, and otherwise
`solution_i` of the least index of `seq` whose sum is the largest over `seq`. -/
def LocalBest (homes : Nat) (max : Int) (pieces : List Int) (seq : List Nat) (r : Solution) :
    Prop :=
  (r = noSolution ∧ ∀ j, j ∈ seq → (solution_i homes max pieces j).sum < 0) ∨
  (∃ w, w ∈ seq ∧ r = solution_i homes max pieces w ∧ 0 ≤ r.sum ∧
    (∀ j, j ∈ seq → (solution_i homes max pieces j).sum ≤ r.sum) ∧
    (∀ j, j ∈ seq → j < w → (solution_i homes max pieces j).sum < r.sum))

/-- How the `solution_final` of thread `t` relates to the indices it has claimed, at
each control point. -/
structure LocalInv (homes : Nat) (max : Int) (pieces : List Int) (s : State) (t : Nat) :
    Prop where
  bound : ∀ j, j ∈ threadClaims s t → j < s.idx ∧ j < homes
  rest : ((s.workers t).pc = Pc.check ∨ (s.workers t).pc = Pc.claim ∨
      (s.workers t).pc = Pc.done) →
    LocalBest homes max pieces (threadClaims s t) (s.workers t).solution_final
  evalH : ∀ i, (s.workers t).pc = Pc.eval i →
    ∃ d, threadClaims s t = d ++ [i] ∧ (∀ j, j ∈ d → j < i) ∧
      LocalBest homes max pieces d (s.workers t).solution_final
  updH : ∀ i sol, (s.workers t).pc = Pc.update i sol →
    ∃ d, threadClaims s t = d ++ [i] ∧ (∀ j, j ∈ d → j < i) ∧
      (sol.sum = max →
        LocalBest homes max pieces (threadClaims s t) (s.workers t).solution_final) ∧
      (sol.sum ≠ max → LocalBest homes max pieces d (s.workers t).solution_final)

/-! ## Exact running totals -/

/-- The exact values `curr_candy` takes in the expansion loop, in order: the value on
entry and the value after each addition. -/
def loopTotals (max : Int) (pieces : List Int) (homes : Nat) : Nat → Int → Nat → List Int
  | 0, curr_candy, _ => [curr_candy]
  | fuel + 1, curr_candy, curr_idx =>
    if curr_candy ≤ max ∧ (curr_idx : Int) < (homes : Int) - 1 then
      curr_candy ::
        loopTotals max pieces homes fuel (curr_candy + pieceAt pieces (curr_idx + 1))
          (curr_idx + 1)
    else [curr_candy]

theorem pieceAt_eq_getElem (pieces : List Int) (k : Nat) (h : k < pieces.length) :
    pieceAt pieces k = pieces[k] := by
  simp [pieceAt, List.getD, List.getElem?_eq_getElem h]

theorem pieceAt_nonneg (pieces : List Int) (hnn : ∀ p ∈ pieces, 0 ≤ p) (k : Nat) :
    0 ≤ pieceAt pieces k := by
  by_cases h : k < pieces.length
  · rw [pieceAt_eq_getElem pieces k h]
    exact hnn _ (List.getElem_mem h)
  · simp [pieceAt, List.getD, List.getElem?_eq_none (Nat.le_of_not_lt h)]

theorem runSum_self (pieces : List Int) (s : Nat) (h : s < pieces.length) :
    runSum pieces s s = pieceAt pieces s := by
  have h1 : s + 1 - s = 1 := by omega
  have h2 : pieces.drop s = pieces[s] :: pieces.drop (s + 1) := List.drop_eq_getElem_cons h
  rw [runSum, h1, h2, pieceAt_eq_getElem pieces s h]
  simp only [List.take_succ_cons, List.take_zero, List.sum_cons, List.sum_nil, add_zero]

theorem runSum_succ (pieces : List Int) (s e : Nat) (hse : s ≤ e) (h : e + 1 < pieces.length) :
    runSum pieces s (e + 1) = runSum pieces s e + pieceAt pieces (e + 1) := by
  have h1 : e + 1 + 1 - s = (e + 1 - s) + 1 := by omega
  have h3 : s + (e + 1 - s) = e + 1 := by omega
  rw [runSum, runSum, h1, List.take_succ, List.sum_append, pieceAt_eq_getElem pieces (e + 1) h]
  simp [List.getElem?_drop, h3, List.getElem?_eq_getElem h]

theorem runSum_mono (pieces : List Int) (hnn : ∀ p ∈ pieces, 0 ≤ p) (s e : Nat) (hse : s ≤ e) :
    ∀ d, e + d < pieces.length → runSum pieces s e ≤ runSum pieces s (e + d) := by
  intro d
  induction d with
  | zero => intro _; exact le_refl _
  | succ d ih =>
    intro h
    have h1 := ih (by omega)
    have h2 := runSum_succ pieces s (e + d) (by omega) (by omega)
    have h3 := pieceAt_nonneg pieces hnn (e + d + 1)
    have h4 : e + (d + 1) = e + d + 1 := by omega
    rw [h4, h2]
    omega

theorem runSum_le_of_le (pieces : List Int) (hnn : ∀ p ∈ pieces, 0 ≤ p) (s e e' : Nat)
    (hse : s ≤ e) (hee : e ≤ e') (h : e' < pieces.length) :
    runSum pieces s e ≤ runSum pieces s e' := by
  have := runSum_mono pieces hnn s e hse (e' - e) (by omega)
  have h4 : e + (e' - e) = e' := by omega
  rwa [h4] at this

theorem runSum_nonneg (pieces : List Int) (hnn : ∀ p ∈ pieces, 0 ≤ p) (s e : Nat) (hse : s ≤ e)
    (h : e < pieces.length) : 0 ≤ runSum pieces s e := by
  have h1 := runSum_le_of_le pieces hnn s s e (le_refl _) hse h
  rw [runSum_self pieces s (by omega)] at h1
  have h2 := pieceAt_nonneg pieces hnn s
  omega

theorem runSum_first_le (pieces : List Int) (hnn : ∀ p ∈ pieces, 0 ≤ p) (s e : Nat) (hse : s ≤ e)
    (h : e < pieces.length) : pieceAt pieces s ≤ runSum pieces s e := by
  have h1 := runSum_le_of_le pieces hnn s s e (le_refl _) hse h
  rwa [runSum_self pieces s (by omega)] at h1

theorem noSolution_sum : noSolution.sum = -1 := rfl

/-! ## The window expander in exact arithmetic -/

/-- Loop invariant of the expansion: started on the total of the run `i..k`, the loop
ends on the total of a run `i..k'` through its own condition, and every shorter
total it passed was within `max`. -/
theorem expandLoopExact_spec (max : Int) (pieces : List Int) (homes : Nat)
    (hlen : pieces.length = homes) (i : Nat) :
    ∀ (fuel : Nat) (c : Int) (k : Nat), i ≤ k → k < homes → c = runSum pieces i k →
      homes - 1 - k ≤ fuel →
      (∀ j, i ≤ j → j < k → runSum pieces i j ≤ max) →
      k ≤ (expandLoopExact max pieces homes fuel c k).2 ∧
      (expandLoopExact max pieces homes fuel c k).2 < homes ∧
      (expandLoopExact max pieces homes fuel c k).1
        = runSum pieces i (expandLoopExact max pieces homes fuel c k).2 ∧
      ¬ ((expandLoopExact max pieces homes fuel c k).1 ≤ max ∧
          ((expandLoopExact max pieces homes fuel c k).2 : Int) < (homes : Int) - 1) ∧
      (∀ j, i ≤ j → j < (expandLoopExact max pieces homes fuel c k).2 → runSum pieces i j ≤ max) := by
  intro fuel
  induction fuel with
  | zero =>
    intro c k hik hk hc hfuel hpre
    simp only [expandLoopExact]
    refine ⟨le_refl _, hk, hc, ?_, hpre⟩
    omega
  | succ fuel ih =>
    intro c k hik hk hc hfuel hpre
    by_cases hcond : c ≤ max ∧ (k : Int) < (homes : Int) - 1
    · have hstep : expandLoopExact max pieces homes (fuel + 1) c k
          = expandLoopExact max pieces homes fuel (c + pieceAt pieces (k + 1)) (k + 1) := by
        simp only [expandLoopExact, hcond, and_self, if_true]
      rw [hstep]
      have hk1 : k + 1 < homes := by omega
      have hsum : c + pieceAt pieces (k + 1) = runSum pieces i (k + 1) := by
        rw [runSum_succ pieces i k hik (by omega), hc]
      have hpre' : ∀ j, i ≤ j → j < k + 1 → runSum pieces i j ≤ max := by
        intro j hij hjk
        by_cases hj : j < k
        · exact hpre j hij hj
        · have : j = k := by omega
          subst this
          rw [← hc]; exact hcond.1
      obtain ⟨h1, h2, h3, h4, h5⟩ :=
        ih (c + pieceAt pieces (k + 1)) (k + 1) (by omega) hk1 hsum (by omega) hpre'
      exact ⟨by omega, h2, h3, h4, h5⟩
    · have hstep : expandLoopExact max pieces homes (fuel + 1) c k = (c, k) := by
        simp only [expandLoopExact, hcond, if_false]
      rw [hstep]
      exact ⟨le_refl _, hk, hc, hcond, hpre⟩

/-- The iteration bound `homes` is never what stops the loop of `solutionExact`: the
loop condition is false on exit. -/
theorem expandLoopExact_exit (max : Int) (pieces : List Int) (homes : Nat)
    (hlen : pieces.length = homes) (i : Nat) (hi : i < homes) :
    ¬ ((expandLoopExact max pieces homes homes (pieceAt pieces i) i).1 ≤ max ∧
        ((expandLoopExact max pieces homes homes (pieceAt pieces i) i).2 : Int) < (homes : Int) - 1) :=
  (expandLoopExact_spec max pieces homes hlen i homes (pieceAt pieces i) i (le_refl _) hi
    (runSum_self pieces i (by omega)).symm (by omega) (by intro j h1 h2; omega)).2.2.2.1

/-- What `solutionExact` holds for a start index inside the vector: the sentinel when the
first house alone exceeds `max`, and otherwise a run `i..e` within `max` that cannot
be extended (it reaches the last house or the next house overshoots). -/
theorem solutionExact_spec (homes : Nat) (max : Int) (pieces : List Int)
    (hlen : pieces.length = homes) (i : Nat) (hi : i < homes) :
    (pieceAt pieces i > max ∧ solutionExact homes max pieces i = noSolution) ∨
    (pieceAt pieces i ≤ max ∧ ∃ e : Nat, i ≤ e ∧ e < homes ∧
      solutionExact homes max pieces i = ⟨runSum pieces i e, i, e⟩ ∧
      runSum pieces i e ≤ max ∧
      (e + 1 = homes ∨ (e + 1 < homes ∧ max < runSum pieces i (e + 1)))) := by
  by_cases hfirst : pieceAt pieces i > max
  · left
    exact ⟨hfirst, by simp only [solutionExact, hfirst, if_true]⟩
  · right
    refine ⟨not_lt.mp hfirst, ?_⟩
    obtain ⟨h1, h2, h3, h4, h5⟩ :=
      expandLoopExact_spec max pieces homes hlen i homes (pieceAt pieces i) i (le_refl _) hi
        (runSum_self pieces i (by omega)).symm (by omega) (by intro j h1 h2; omega)
    generalize hr : expandLoopExact max pieces homes homes (pieceAt pieces i) i = r at h1 h2 h3 h4 h5
    by_cases hover : r.1 > max
    · have hne : r.2 ≠ i := by
        intro heq
        rw [heq, runSum_self pieces i (by omega)] at h3
        omega
      obtain ⟨e, he⟩ : ∃ e, r.2 = e + 1 := ⟨r.2 - 1, by omega⟩
      have hsucc := runSum_succ pieces i e (by omega) (by omega)
      refine ⟨e, by omega, by omega, ?_, h5 e (by omega) (by omega), Or.inr ⟨by omega, ?_⟩⟩
      · simp only [solutionExact, hfirst, if_false, hr, hover, if_true, he]
        rw [he] at h3
        rw [h3, hsucc]
        congr 1
        · omega
        · push_cast; omega
      · rw [← he, ← h3]; exact hover
    · refine ⟨r.2, h1, h2, ?_, ?_, Or.inl ?_⟩
      · simp only [solutionExact, hfirst, if_false, hr, hover]
        rw [h3]
      · rw [← h3]; exact not_lt.mp hover
      · have := not_lt.mp hover
        omega

/-- A solution is the sentinel or a genuine run starting at its own index. -/
theorem solutionExact_cases (homes : Nat) (max : Int) (pieces : List Int)
    (hL : Legal homes max pieces) (i : Nat) (hi : i < homes) :
    solutionExact homes max pieces i = noSolution ∨
    (0 ≤ (solutionExact homes max pieces i).sum ∧ (solutionExact homes max pieces i).start = i) := by
  obtain ⟨hlen, hnn, _⟩ := hL
  rcases solutionExact_spec homes max pieces hlen i hi with ⟨_, h⟩ | ⟨_, e, hie, he, heq, _, _⟩
  · exact Or.inl h
  · right
    rw [heq]
    exact ⟨runSum_nonneg pieces hnn i e hie (by omega), rfl⟩

theorem solutionExact_sum_le_max (homes : Nat) (max : Int) (pieces : List Int)
    (hL : Legal homes max pieces) (i : Nat) (hi : i < homes) :
    (solutionExact homes max pieces i).sum ≤ max := by
  obtain ⟨hlen, hnn, hmax⟩ := hL
  rcases solutionExact_spec homes max pieces hlen i hi with ⟨_, h⟩ | ⟨_, e, hie, he, heq, hle, _⟩
  · rw [h]; simp only [noSolution]; omega
  · rw [heq]; exact hle

/-- Every run from `i` that stays within `max` totals at most the sum of `solutionExact`. -/
theorem solutionExact_maximal (homes : Nat) (max : Int) (pieces : List Int)
    (hL : Legal homes max pieces) (i e : Nat) (hie : i ≤ e) (he : e < homes)
    (hrun : runSum pieces i e ≤ max) :
    runSum pieces i e ≤ (solutionExact homes max pieces i).sum ∧
    (e : Int) ≤ (solutionExact homes max pieces i).finish := by
  obtain ⟨hlen, hnn, hmax⟩ := hL
  rcases solutionExact_spec homes max pieces hlen i (by omega) with
    ⟨hgt, _⟩ | ⟨_, e', hie', he', heq, hle, hstop⟩
  · have := runSum_first_le pieces hnn i e hie (by omega)
    omega
  · rw [heq]
    have hee : e ≤ e' := by
      by_contra hcon
      rcases hstop with h | ⟨h1, h2⟩
      · omega
      · have := runSum_le_of_le pieces hnn i (e' + 1) e (by omega) (by omega) (by omega)
        omega
    exact ⟨runSum_le_of_le pieces hnn i e e' hie hee (by omega), by simp only; omega⟩

theorem solutionExact_eq_noSolution_iff (homes : Nat) (max : Int) (pieces : List Int)
    (hlen : pieces.length = homes) (i : Nat) (hi : i < homes) :
    solutionExact homes max pieces i = noSolution ↔ pieceAt pieces i > max := by
  rcases solutionExact_spec homes max pieces hlen i hi with ⟨h1, h2⟩ | ⟨h1, e, _, _, heq, _, _⟩
  · exact ⟨fun _ => h1, fun _ => h2⟩
  · constructor
    · intro h
      rw [heq] at h
      have := congrArg Solution.start h
      simp only [noSolution] at this
      omega
    · intro h; omega

/-! ## The 32-bit expansion loop -/

theorem wrap32_eq (x : Int) (h0 : 0 ≤ x) (h1 : x < 2147483648) : wrap32 x = x := by
  unfold wrap32
  omega

/-- Undoing a wrapped addition by the wrapped subtraction of the same amount gives
back the held value. -/
theorem wrap32_cancel (c p : Int) : wrap32 (wrap32 (c + p) - p) = wrap32 c := by
  unfold wrap32
  omega

theorem wrap32_idem (x : Int) : wrap32 (wrap32 x) = wrap32 x := by
  unfold wrap32
  omega

theorem wrap32_lt (x : Int) : wrap32 x < 2147483648 := by
  unfold wrap32
  omega

/-- A loop entered with its condition false returns at once. -/
theorem expandLoop_stop (max : Int) (pieces : List Int) (homes fuel : Nat) (c : Int) (k : Nat)
    (h : ¬ (c ≤ max ∧ (k : Int) < (homes : Int) - 1)) :
    expandLoop max pieces homes fuel c k = (c, k) := by
  cases fuel <;> simp only [expandLoop, h, if_false]

/-- An iteration budget that covers the distance to the last house is never what stops
the loop: the loop condition is false on exit. -/
theorem expandLoop_exit (max : Int) (pieces : List Int) (homes : Nat) :
    ∀ (fuel : Nat) (c : Int) (k : Nat), homes - 1 - k ≤ fuel →
      ¬ ((expandLoop max pieces homes fuel c k).1 ≤ max ∧
          ((expandLoop max pieces homes fuel c k).2 : Int) < (homes : Int) - 1) := by
  intro fuel
  induction fuel with
  | zero =>
    intro c k h
    simp only [expandLoop]
    omega
  | succ fuel ih =>
    intro c k h
    by_cases hcond : c ≤ max ∧ (k : Int) < (homes : Int) - 1
    · simp only [expandLoop, hcond, and_self, if_true]
      exact ih _ _ (by omega)
    · rw [expandLoop_stop max pieces homes (fuel + 1) c k hcond]
      exact hcond

/-- Any two iteration budgets that cover the distance to the last house give the same
loop result. -/
theorem expandLoop_budget (max : Int) (pieces : List Int) (homes : Nat) :
    ∀ (fuel fuel' : Nat) (c : Int) (k : Nat), homes - 1 - k ≤ fuel → homes - 1 - k ≤ fuel' →
      expandLoop max pieces homes fuel c k = expandLoop max pieces homes fuel' c k := by
  intro fuel
  induction fuel with
  | zero =>
    intro fuel' c k h _
    cases fuel' with
    | zero => rfl
    | succ f =>
      have hcond : ¬ (c ≤ max ∧ (k : Int) < (homes : Int) - 1) := by omega
      simp only [expandLoop, hcond, if_false]
  | succ fuel ih =>
    intro fuel' c k h h'
    by_cases hcond : c ≤ max ∧ (k : Int) < (homes : Int) - 1
    · cases fuel' with
      | zero => omega
      | succ f =>
        simp only [expandLoop, hcond, and_self, if_true]
        exact ih f _ _ (by omega) (by omega)
    · cases fuel' with
      | zero => simp only [expandLoop, hcond, if_false]
      | succ f => simp only [expandLoop, hcond, if_false]

/-- The loop stays below `homes`, whatever the length of `pieces`. -/
theorem expandLoop_index_lt (max : Int) (pieces : List Int) (homes : Nat) :
    ∀ (fuel : Nat) (c : Int) (k : Nat), k < homes →
      (expandLoop max pieces homes fuel c k).2 < homes := by
  intro fuel
  induction fuel with
  | zero => intro c k hk; exact hk
  | succ fuel ih =>
    intro c k hk
    by_cases hcond : c ≤ max ∧ (k : Int) < (homes : Int) - 1
    · simp only [expandLoop, hcond, and_self, if_true]
      exact ih _ _ (by omega)
    · simp only [expandLoop, hcond, if_false]
      exact hk

/-- When the loop ends above `max`, the rollback returns to the total held before the
last addition, which was within `max`; this holds with wrap-around as well. -/
theorem expandLoop_rollback (max : Int) (pieces : List Int) (homes : Nat) :
    ∀ (fuel : Nat) (c : Int) (k : Nat), c ≤ max → (wrap32 c = c ∨ 2147483647 ≤ max) →
      (expandLoop max pieces homes fuel c k).1 > max →
      wrap32 ((expandLoop max pieces homes fuel c k).1
        - pieceAt pieces (expandLoop max pieces homes fuel c k).2) ≤ max := by
  intro fuel
  induction fuel with
  | zero =>
    intro c k hc _ hgt
    simp only [expandLoop] at hgt
    omega
  | succ fuel ih =>
    intro c k hc hw hgt
    by_cases hcond : c ≤ max ∧ (k : Int) < (homes : Int) - 1
    · have hstep : expandLoop max pieces homes (fuel + 1) c k
          = expandLoop max pieces homes fuel (wrap32 (c + pieceAt pieces (k + 1))) (k + 1) := by
        simp only [expandLoop, hcond, and_self, if_true]
      rw [hstep] at hgt ⊢
      by_cases hnext : wrap32 (c + pieceAt pieces (k + 1)) ≤ max
      · exact ih _ _ hnext (Or.inl (wrap32_idem _)) hgt
      · have hstop := expandLoop_stop max pieces homes fuel
          (wrap32 (c + pieceAt pieces (k + 1))) (k + 1) (fun h => hnext h.1)
        rw [hstop]
        simp only
        rw [wrap32_cancel]
        have hlt := wrap32_lt (c + pieceAt pieces (k + 1))
        rcases hw with hw | hw
        · rw [hw]; exact hc
        · omega
    · rw [expandLoop_stop max pieces homes (fuel + 1) c k hcond] at hgt
      simp only at hgt
      omega

/-- In 32-bit arithmetic too, no candidate has a sum above `max`. -/
theorem solution_i_sum_le_max (homes : Nat) (max : Int) (pieces : List Int)
    (hL : Legal homes max pieces) (i : Nat) :
    (solution_i homes max pieces i).sum ≤ max := by
  obtain ⟨_, hnonneg, hmax⟩ := hL
  unfold solution_i
  by_cases hfirst : pieceAt pieces i > max
  · simp only [hfirst, if_true, noSolution]
    omega
  · simp only [hfirst, if_false]
    by_cases hover : (expandLoop max pieces homes homes (pieceAt pieces i) i).1 > max
    · simp only [hover, if_true]
      refine expandLoop_rollback max pieces homes homes (pieceAt pieces i) i (by omega) ?_ hover
      have h0 := pieceAt_nonneg pieces hnonneg i
      by_cases hbig : 2147483647 ≤ max
      · exact Or.inr hbig
      · exact Or.inl (wrap32_eq _ h0 (by omega))
    · simp only [hover, if_false]
      omega

/-- A candidate with a non-negative sum starts at its own index. -/
theorem solution_i_start (homes : Nat) (max : Int) (pieces : List Int) (i : Nat)
    (h : 0 ≤ (solution_i homes max pieces i).sum) :
    (solution_i homes max pieces i).start = i := by
  unfold solution_i at h ⊢
  by_cases hfirst : pieceAt pieces i > max
  · simp only [hfirst, if_true, noSolution] at h
    omega
  · simp only [hfirst, if_false]
    split <;> rfl

/-! ## Agreement of the 32-bit and the exact computation -/

theorem pieceAt_le (pieces : List Int) (B : Int) (hB : ∀ p, p ∈ pieces → p ≤ B) (h0 : 0 ≤ B)
    (k : Nat) : pieceAt pieces k ≤ B := by
  by_cases h : k < pieces.length
  · rw [pieceAt_eq_getElem pieces k h]
    exact hB _ (List.getElem_mem h)
  · simp [pieceAt, List.getD, List.getElem?_eq_none (Nat.le_of_not_lt h), h0]

/-- The loop's record of totals ends in the total the loop returns. -/
theorem loopTotals_getLast (max : Int) (pieces : List Int) (homes : Nat) :
    ∀ (fuel : Nat) (c : Int) (k : Nat),
      (loopTotals max pieces homes fuel c k).getLast?
        = some (expandLoopExact max pieces homes fuel c k).1 := by
  intro fuel
  induction fuel with
  | zero => intro c k; rfl
  | succ fuel ih =>
    intro c k
    by_cases hcond : c ≤ max ∧ (k : Int) < (homes : Int) - 1
    · simp only [loopTotals, expandLoopExact, hcond, and_self, if_true]
      have := ih (c + pieceAt pieces (k + 1)) (k + 1)
      cases hl : loopTotals max pieces homes fuel (c + pieceAt pieces (k + 1)) (k + 1) with
      | nil => rw [hl] at this; cases this
      | cons x xs =>
        rw [hl] at this
        rw [List.getLast?_cons_cons]
        exact this
    · simp only [loopTotals, expandLoopExact, hcond, if_false]
      rfl

/-- While every held total stays in range the 32-bit loop is the exact loop. -/
theorem expandLoop_eq_exact (max : Int) (pieces : List Int) (homes : Nat) (B : Int)
    (hnn : ∀ k, 0 ≤ pieceAt pieces k) (hle : ∀ k, pieceAt pieces k ≤ B)
    (hfit : max + B < 2147483648) :
    ∀ (fuel : Nat) (c : Int) (k : Nat), 0 ≤ c →
      expandLoop max pieces homes fuel c k = expandLoopExact max pieces homes fuel c k := by
  intro fuel
  induction fuel with
  | zero => intro c k _; rfl
  | succ fuel ih =>
    intro c k h0
    by_cases hcond : c ≤ max ∧ (k : Int) < (homes : Int) - 1
    · have h2 := hnn (k + 1)
      have h3 := hle (k + 1)
      simp only [expandLoop, expandLoopExact, hcond, and_self, if_true]
      rw [wrap32_eq _ (by omega) (by omega)]
      exact ih _ _ (by omega)
    · simp only [expandLoop, expandLoopExact, hcond, if_false]

/-- Without overflow the program computes the window expander of the specification. -/
theorem solution_i_eq_exact (homes : Nat) (max : Int) (pieces : List Int)
    (hL : Legal homes max pieces) (i : Nat) (hi : i < homes) (B : Int)
    (hB : ∀ p, p ∈ pieces → p ≤ B) (hfit : max + B < 2147483648) :
    solution_i homes max pieces i = solutionExact homes max pieces i := by
  have hE := solutionExact_cases homes max pieces hL i hi
  have hM := solutionExact_sum_le_max homes max pieces hL i hi
  have hlen := hL.1
  have hnn : ∀ k, 0 ≤ pieceAt pieces k := pieceAt_nonneg pieces hL.2.1
  have hB0 : 0 ≤ B := by
    have h1 : pieceAt pieces i ∈ pieces := by
      rw [pieceAt_eq_getElem pieces i (by omega)]
      exact List.getElem_mem _
    have := hB _ h1
    have := hnn i
    omega
  have hle : ∀ k, pieceAt pieces k ≤ B := pieceAt_le pieces B hB hB0
  have hloop := expandLoop_eq_exact max pieces homes B hnn hle hfit homes (pieceAt pieces i) i
    (hnn i)
  unfold solution_i solutionExact at *
  by_cases hfirst : pieceAt pieces i > max
  · simp only [hfirst, if_true]
  · simp only [hfirst, if_false, hloop] at hE hM ⊢
    by_cases hover : (expandLoopExact max pieces homes homes (pieceAt pieces i) i).1 > max
    · simp only [hover, if_true] at hE hM ⊢
      have h0 : 0 ≤ (expandLoopExact max pieces homes homes (pieceAt pieces i) i).1
          - pieceAt pieces (expandLoopExact max pieces homes homes (pieceAt pieces i) i).2 := by
        rcases hE with h | ⟨h, _⟩
        · have := congrArg Solution.start h
          simp only [noSolution] at this
          omega
        · exact h
      rw [wrap32_eq _ h0 (by omega)]
    · simp only [hover, if_false]

theorem solution_i_exact_of_noOverflow (homes : Nat) (max : Int) (pieces : List Int)
    (hL : Legal homes max pieces) (hN : NoOverflow max pieces) (i : Nat) (hi : i < homes) :
    solution_i homes max pieces i = solutionExact homes max pieces i := by
  obtain ⟨B, hB, hfit⟩ := hN
  exact solution_i_eq_exact homes max pieces hL i hi B hB hfit

/-! ## The candidate when no total can overflow -/

/-- What `solution_i` holds for a start index inside the vector when no total can
overflow: the sentinel when the first house alone exceeds `max`, and otherwise a run
`i..e` within `max` that cannot be extended. -/
theorem solution_i_spec (homes : Nat) (max : Int) (pieces : List Int)
    (hL : Legal homes max pieces) (hN : NoOverflow max pieces) (i : Nat) (hi : i < homes) :
    (pieceAt pieces i > max ∧ solution_i homes max pieces i = noSolution) ∨
    (pieceAt pieces i ≤ max ∧ ∃ e : Nat, i ≤ e ∧ e < homes ∧
      solution_i homes max pieces i = ⟨runSum pieces i e, i, e⟩ ∧
      runSum pieces i e ≤ max ∧
      (e + 1 = homes ∨ (e + 1 < homes ∧ max < runSum pieces i (e + 1)))) := by
  rw [solution_i_exact_of_noOverflow homes max pieces hL hN i hi]
  exact solutionExact_spec homes max pieces hL.1 i hi

theorem solution_i_cases (homes : Nat) (max : Int) (pieces : List Int)
    (hL : Legal homes max pieces) (hN : NoOverflow max pieces) (i : Nat) (hi : i < homes) :
    solution_i homes max pieces i = noSolution ∨
    (0 ≤ (solution_i homes max pieces i).sum ∧ (solution_i homes max pieces i).start = i) := by
  rw [solution_i_exact_of_noOverflow homes max pieces hL hN i hi]
  exact solutionExact_cases homes max pieces hL i hi

theorem solution_i_maximal (homes : Nat) (max : Int) (pieces : List Int)
    (hL : Legal homes max pieces) (hN : NoOverflow max pieces) (i e : Nat) (hie : i ≤ e)
    (he : e < homes) (hrun : runSum pieces i e ≤ max) :
    runSum pieces i e ≤ (solution_i homes max pieces i).sum ∧
    (e : Int) ≤ (solution_i homes max pieces i).finish := by
  rw [solution_i_exact_of_noOverflow homes max pieces hL hN i (by omega)]
  exact solutionExact_maximal homes max pieces hL i e hie he hrun

theorem solution_i_eq_noSolution_iff (homes : Nat) (max : Int) (pieces : List Int)
    (hL : Legal homes max pieces) (hN : NoOverflow max pieces) (i : Nat) (hi : i < homes) :
    solution_i homes max pieces i = noSolution ↔ pieceAt pieces i > max := by
  rw [solution_i_exact_of_noOverflow homes max pieces hL hN i hi]
  exact solutionExact_eq_noSolution_iff homes max pieces hL.1 i hi

/-- Without overflow a candidate has a negative sum exactly when it is the sentinel,
that is when its first house alone exceeds `max`. -/
theorem solution_i_neg_iff (homes : Nat) (max : Int) (pieces : List Int)
    (hL : Legal homes max pieces) (hN : NoOverflow max pieces) (i : Nat) (hi : i < homes) :
    (solution_i homes max pieces i).sum < 0 ↔ pieceAt pieces i > max := by
  constructor
  · intro h
    rcases solution_i_cases homes max pieces hL hN i hi with hc | ⟨hc, _⟩
    · exact (solution_i_eq_noSolution_iff homes max pieces hL hN i hi).mp hc
    · omega
  · intro h
    rw [(solution_i_eq_noSolution_iff homes max pieces hL hN i hi).mpr h, noSolution_sum]
    omega

/-! ## The serial loop -/

/-- Extending the first best expansion below `a` by the strict-greater update with the
expansion of `a` gives the first best expansion below `a + 1`. -/
theorem firstBest_succ (homes : Nat) (max : Int) (pieces : List Int) (a : Nat) (fin : Solution)
    (hfb : FirstBest homes max pieces a fin) :
    FirstBest homes max pieces (a + 1)
      (if (solution_i homes max pieces a).sum > fin.sum then solution_i homes max pieces a
       else fin) := by
  by_cases hgt : (solution_i homes max pieces a).sum > fin.sum
  · rw [if_pos hgt]
    right
    refine ⟨a, by omega, rfl, ?_, ?_, ?_⟩
    · rcases hfb with ⟨hf, _⟩ | ⟨w, _, _, hf, _, _⟩
      · rw [hf, noSolution_sum] at hgt; omega
      · omega
    · intro j hj
      by_cases hja : j < a
      · rcases hfb with ⟨hf, hall⟩ | ⟨w, _, _, _, hall, _⟩
        · have := hall j hja
          rw [hf, noSolution_sum] at hgt
          omega
        · have := hall j hja; omega
      · have : j = a := by omega
        subst this; exact le_refl _
    · intro j hja
      rcases hfb with ⟨hf, hall⟩ | ⟨w, _, _, _, hall, _⟩
      · have := hall j hja
        rw [hf, noSolution_sum] at hgt
        omega
      · have := hall j hja; omega
  · rw [if_neg hgt]
    rcases hfb with ⟨hf, hall⟩ | ⟨w, hw, hfw, hpos, hall, hmin⟩
    · left
      refine ⟨hf, ?_⟩
      intro j hj
      by_cases hja : j < a
      · exact hall j hja
      · have : j = a := by omega
        subst this
        rw [hf, noSolution_sum] at hgt
        omega
    · right
      refine ⟨w, by omega, hfw, hpos, ?_, hmin⟩
      intro j hj
      by_cases hja : j < a
      · exact hall j hja
      · have : j = a := by omega
        subst this; omega

/-- Loop invariant of the serial search over the indices `a, a+1, ..., homes-1`. -/
theorem serialLoop_firstBest (homes : Nat) (max : Int) (pieces : List Int)
    (hL : Legal homes max pieces) :
    ∀ (m a : Nat) (fin : Solution), a + m = homes →
      FirstBest homes max pieces a fin →
      (∀ j, j < a → (solution_i homes max pieces j).sum ≠ max) →
      FirstBest homes max pieces homes (serialLoop homes max pieces (List.range' a m) fin) := by
  intro m
  induction m with
  | zero =>
    intro a fin ha hfb _
    have : a = homes := by omega
    subst this
    simpa [serialLoop] using hfb
  | succ m ih =>
    intro a fin ha hfb hnohit
    have ha' : a < homes := by omega
    rw [List.range'_succ, serialLoop]
    have hle := solution_i_sum_le_max homes max pieces hL
    by_cases hhit : (solution_i homes max pieces a).sum = max
    · rw [if_pos hhit]
      right
      refine ⟨a, ha', rfl, ?_, ?_, ?_⟩
      · rw [hhit]; exact hL.2.2
      · intro j _; rw [hhit]; exact hle j
      · intro j hj
        have h1 := hle j
        have h2 := hnohit j hj
        rw [hhit]; omega
    · rw [if_neg hhit]
      apply ih (a + 1) _ (by omega) (firstBest_succ homes max pieces a fin hfb)
      intro j hj
      by_cases hja : j < a
      · exact hnohit j hja
      · have : j = a := by omega
        subst this; exact hhit

/-- The serial program returns the first best expansion over all start indices. -/
theorem serial_firstBest (homes : Nat) (max : Int) (pieces : List Int)
    (hL : Legal homes max pieces) :
    FirstBest homes max pieces homes (serial homes max pieces) := by
  have hlen : pieces.length = homes := hL.1
  rw [serial, hlen, List.range_eq_range']
  exact serialLoop_firstBest homes max pieces hL homes 0 noSolution (by omega)
    (Or.inl ⟨rfl, by intro j hj; omega⟩) (by intro j hj; omega)

/-- The first best expansion is unique. -/
theorem firstBest_unique (homes : Nat) (max : Int) (pieces : List Int) (n : Nat)
    (r r' : Solution) (h : FirstBest homes max pieces n r) (h' : FirstBest homes max pieces n r') :
    r = r' := by
  rcases h with ⟨hr, hall⟩ | ⟨w, hw, hrw, hpos, hmax, hmin⟩
  · rcases h' with ⟨hr', _⟩ | ⟨w', hw', hrw', hpos', _, _⟩
    · rw [hr, hr']
    · have := hall w' hw'
      rw [hrw'] at hpos'
      omega
  · rcases h' with ⟨hr', hall'⟩ | ⟨w', hw', hrw', hpos', hmax', hmin'⟩
    · have := hall' w hw
      rw [hrw] at hpos
      omega
    · have hww : w = w' := by
        rcases Nat.lt_trichotomy w w' with hlt | heq | hgt
        · have h1 := hmin' w hlt
          have h2 := hmax w' hw'
          rw [hrw] at h2; rw [hrw'] at h1
          omega
        · exact heq
        · have h1 := hmin w' hgt
          have h2 := hmax' w hw
          rw [hrw] at h1; rw [hrw'] at h2
          omega
      rw [hrw, hrw', hww]

theorem exhaustiveLoop_firstBest (homes : Nat) (max : Int) (pieces : List Int) :
    ∀ (m a : Nat) (fin : Solution), a + m = homes →
      FirstBest homes max pieces a fin →
      FirstBest homes max pieces homes
        (exhaustiveLoop homes max pieces (List.range' a m) fin) := by
  intro m
  induction m with
  | zero =>
    intro a fin ha hfb
    have : a = homes := by omega
    subst this
    simpa [exhaustiveLoop] using hfb
  | succ m ih =>
    intro a fin ha hfb
    rw [List.range'_succ, exhaustiveLoop]
    exact ih (a + 1) _ (by omega) (firstBest_succ homes max pieces a fin hfb)

theorem exhaustive_firstBest (homes : Nat) (max : Int) (pieces : List Int)
    (hlen : pieces.length = homes) :
    FirstBest homes max pieces homes (exhaustive homes max pieces) := by
  rw [exhaustive, hlen, List.range_eq_range']
  exact exhaustiveLoop_firstBest homes max pieces homes 0 noSolution (by omega)
    (Or.inl ⟨rfl, by intro j hj; omega⟩)

/-! ## The global reduction -/

theorem atLeastAsGood_refl (a : Solution) : AtLeastAsGood a a := Or.inr ⟨rfl, le_refl _⟩

theorem atLeastAsGood_trans (a b c : Solution) (hab : AtLeastAsGood a b)
    (hbc : AtLeastAsGood b c) : AtLeastAsGood a c := by
  unfold AtLeastAsGood at *
  omega

/-- One reduction iteration keeps one of its two arguments, and the one it keeps is
at least as good as both. -/
theorem reduceStep_spec (b s : Solution) :
    (reduceStep b s = b ∨ reduceStep b s = s) ∧
    AtLeastAsGood (reduceStep b s) b ∧ AtLeastAsGood (reduceStep b s) s := by
  unfold reduceStep AtLeastAsGood
  by_cases h1 : s.sum ≥ b.sum
  · rw [if_pos h1]
    by_cases h2 : s.sum = b.sum ∧ s.start < b.start
    · rw [if_pos h2]
      refine ⟨Or.inr rfl, ?_, ?_⟩ <;> omega
    · rw [if_neg h2]
      by_cases h3 : s.sum > b.sum
      · rw [if_pos h3]
        refine ⟨Or.inr rfl, ?_, ?_⟩ <;> omega
      · rw [if_neg h3]
        refine ⟨Or.inl rfl, ?_, ?_⟩ <;> omega
  · rw [if_neg h1]
    refine ⟨Or.inl rfl, ?_, ?_⟩ <;> omega

/-- The reduction started from `b` returns `b` or a slot, at least as good as `b` and
as every slot. -/
theorem foldl_reduceStep_spec (l : List Solution) :
    ∀ b : Solution,
      (l.foldl reduceStep b = b ∨ l.foldl reduceStep b ∈ l) ∧
      AtLeastAsGood (l.foldl reduceStep b) b ∧
      ∀ t, t ∈ l → AtLeastAsGood (l.foldl reduceStep b) t := by
  induction l with
  | nil =>
    intro b
    exact ⟨Or.inl rfl, atLeastAsGood_refl b, by intro t ht; cases ht⟩
  | cons x xs ih =>
    intro b
    obtain ⟨h1, h2, h3⟩ := ih (reduceStep b x)
    obtain ⟨k1, k2, k3⟩ := reduceStep_spec b x
    rw [List.foldl_cons]
    refine ⟨?_, atLeastAsGood_trans _ _ _ h2 k2, ?_⟩
    · rcases h1 with h | h
      · rcases k1 with k | k
        · left; rw [h, k]
        · right; rw [h, k]; exact List.mem_cons_self _ _
      · right; exact List.mem_cons_of_mem _ h
    · intro t ht
      rcases List.mem_cons.mp ht with h | h
      · rw [h]; exact atLeastAsGood_trans _ _ _ h2 k3
      · exact h3 t h

theorem best_solution_spec (l : List Solution) :
    (best_solution l = noSolution ∨ best_solution l ∈ l) ∧
    ∀ t, t ∈ l → AtLeastAsGood (best_solution l) t := by
  obtain ⟨h1, _, h3⟩ := foldl_reduceStep_spec l noSolution
  exact ⟨h1, h3⟩

/-! ## Invariant of the parallel region -/

/-- A thread that does not move keeps its invariant when the cursor grows and the
flag is raised. -/
theorem WorkerInv.mono {homes : Nat} {max : Int} {pieces : List Int} {team idx : Nat}
    {stop : Bool} {t : Nat} {w : Worker}
    (h : WorkerInv homes max pieces team idx stop t w) (idx' : Nat) (stop' : Bool)
    (hidx : idx ≤ idx') (hstop : stop = true → stop' = true) :
    WorkerInv homes max pieces team idx' stop' t w := by
  refine ⟨h.idle, ?_, ?_, ?_, ?_, ?_⟩
  · rcases h.origin with ho | ⟨i, h1, h2, h3⟩
    · exact Or.inl ho
    · refine Or.inr ⟨i, h1, ?_, h3⟩
      cases hpc : w.pc <;> rw [hpc] at h2 <;> simp only [Pc.bound] at h2 ⊢ <;> omega
  · intro i hi
    have := h.evalPc i hi
    omega
  · intro i sol hi
    obtain ⟨h1, h2, h3, h4⟩ := h.updatePc i sol hi
    exact ⟨by omega, h2, h3, h4⟩
  · intro hm
    obtain ⟨h1, h2, h3⟩ := h.hitStop hm
    exact ⟨hstop h1, h2, h3⟩
  · intro hd
    rcases h.doneWhy hd with h1 | h1
    · exact Or.inl (hstop h1)
    · exact Or.inr (by omega)

/-- Re-establishing the invariant after thread `t` has moved. -/
theorem Inv.afterMove {homes : Nat} {max : Int} {pieces : List Int} {team : Nat} {s : State}
    (h : Inv homes max pieces team s) (t idx' : Nat) (stop' : Bool) (w' : Worker)
    (claimed' : List (Nat × Nat))
    (hidx : s.idx ≤ idx') (hstop : s.stop = true → stop' = true)
    (hw : WorkerInv homes max pieces team idx' stop' t w')
    (hsh : stop' = true → ∃ j, j < idx' ∧ j < homes ∧ (solution_i homes max pieces j).sum = max)
    (hc1 : claimed'.map Prod.snd = List.range (min idx' homes))
    (hc2 : ∀ p, p ∈ claimed' → p.1 < team) :
    Inv homes max pieces team ⟨idx', stop', Function.update s.workers t w', claimed'⟩ := by
  refine ⟨?_, hsh, hc1, hc2⟩
  intro t'
  by_cases htt : t' = t
  · subst htt
    simpa only [Function.update_same] using hw
  · simp only [Function.update_noteq htt]
    exact (h.workers t').mono idx' stop' hidx hstop

theorem initState_inv (homes : Nat) (max : Int) (pieces : List Int) (team : Nat)
    (hL : Legal homes max pieces) : Inv homes max pieces team initState := by
  refine ⟨?_, ?_, ?_, ?_⟩
  · intro t
    refine ⟨fun _ => rfl, Or.inl rfl, ?_, ?_, ?_, ?_⟩
    · intro i hi; simp [initState] at hi
    · intro i sol hi; simp [initState] at hi
    · intro hm
      have h0 := hL.2.2
      simp only [initState, noSolution] at hm
      omega
    · intro hd; simp [initState] at hd
  · intro hs; simp [initState] at hs
  · simp [initState]
  · intro p hp; simp [initState] at hp

/-- Every action of every thread preserves the invariant. -/
theorem step_inv (homes : Nat) (max : Int) (pieces : List Int) (team : Nat)
    (t : Nat) (s : State) (h : Inv homes max pieces team s) :
    Inv homes max pieces team (step homes max pieces team t s) := by
  unfold step
  by_cases ht : t < team
  swap
  · rw [if_neg ht]; exact h
  rw [if_pos ht]
  have hw := h.workers t
  have hidle : team ≤ t → False := fun h' => absurd ht (by omega)
  split
  · -- line 65: load of the flag
    rename_i hpc
    by_cases hs : s.stop = true
    · rw [if_pos hs]
      refine h.afterMove t s.idx s.stop _ s.claimed (le_refl _) id ?_ h.stopHit h.claimedIdx h.claimedBy
      refine ⟨fun h' => (hidle h').elim, ?_, ?_, ?_, ?_, ?_⟩
      · rcases hw.origin with ho | ⟨i, h1, h2, h3⟩
        · exact Or.inl ho
        · rw [hpc] at h2
          exact Or.inr ⟨i, h1, h2, h3⟩
      · intro i hi; cases hi
      · intro i sol hi; cases hi
      · intro _; exact ⟨hs, by simp, by simp⟩
      · intro _; exact Or.inl hs
    · rw [if_neg hs]
      refine h.afterMove t s.idx s.stop _ s.claimed (le_refl _) id ?_ h.stopHit h.claimedIdx h.claimedBy
      refine ⟨fun h' => (hidle h').elim, ?_, ?_, ?_, ?_, ?_⟩
      · rcases hw.origin with ho | ⟨i, h1, h2, h3⟩
        · exact Or.inl ho
        · rw [hpc] at h2
          exact Or.inr ⟨i, h1, h2, h3⟩
      · intro i hi; cases hi
      · intro i sol hi; cases hi
      · intro hm; exact absurd (hw.hitStop hm).1 hs
      · intro hd; cases hd
  · -- line 69: atomic capture of the cursor
    rename_i hpc
    have hnomax : (s.workers t).solution_final.sum ≠ max := fun hm => (hw.hitStop hm).2.1 hpc
    by_cases hx : s.idx ≥ homes
    · rw [if_pos hx]
      refine h.afterMove t (s.idx + 1) s.stop _ s.claimed (by omega) id ?_ ?_ ?_ h.claimedBy
      · refine ⟨fun h' => (hidle h').elim, ?_, ?_, ?_, ?_, ?_⟩
        · rcases hw.origin with ho | ⟨i, h1, h2, h3⟩
          · exact Or.inl ho
          · rw [hpc] at h2
            simp only [Pc.bound] at h2 ⊢
            exact Or.inr ⟨i, h1, by omega, h3⟩
        · intro i hi; cases hi
        · intro i sol hi; cases hi
        · intro hm; exact absurd hm hnomax
        · intro _; exact Or.inr (by omega)
      · intro hs
        obtain ⟨j, h1, h2, h3⟩ := h.stopHit hs
        exact ⟨j, by omega, h2, h3⟩
      · rw [h.claimedIdx]
        congr 1
        omega
    · rw [if_neg hx]
      refine h.afterMove t (s.idx + 1) s.stop _ (s.claimed ++ [(t, s.idx)]) (by omega) id ?_ ?_ ?_ ?_
      · refine ⟨fun h' => (hidle h').elim, ?_, ?_, ?_, ?_, ?_⟩
        · rcases hw.origin with ho | ⟨i, h1, h2, h3⟩
          · exact Or.inl ho
          · rw [hpc] at h2
            exact Or.inr ⟨i, h1, h2, h3⟩
        · intro i hi
          cases hi
          exact ⟨by omega, by omega⟩
        · intro i sol hi; cases hi
        · intro hm; exact absurd hm hnomax
        · intro hd; cases hd
      · intro hs
        obtain ⟨j, h1, h2, h3⟩ := h.stopHit hs
        exact ⟨j, by omega, h2, h3⟩
      · rw [List.map_append, h.claimedIdx]
        have h1 : min s.idx homes = s.idx := by omega
        have h2 : min (s.idx + 1) homes = s.idx + 1 := by omega
        rw [h1, h2, List.range_succ]
        rfl
      · intro p hp
        rcases List.mem_append.mp hp with hp | hp
        · exact h.claimedBy p hp
        · simp only [List.mem_singleton] at hp
          rw [hp]; exact ht
  · -- lines 72-95: expansion and, on an exact hit, cancellation
    rename_i i hpc
    obtain ⟨hi1, hi2⟩ := hw.evalPc i hpc
    have hnomax : (s.workers t).solution_final.sum ≠ max := fun hm => (hw.hitStop hm).2.2 i hpc
    by_cases hhit : (solution_i homes max pieces i).sum = max
    · rw [if_pos hhit]
      refine h.afterMove t s.idx true _ s.claimed (le_refl _) (fun _ => rfl) ?_ ?_
        h.claimedIdx h.claimedBy
      · refine ⟨fun h' => (hidle h').elim, ?_, ?_, ?_, ?_, ?_⟩
        · exact Or.inr ⟨i, hi2, by simp [Pc.bound], rfl⟩
        · intro j hj; cases hj
        · intro j sol hj
          cases hj
          exact ⟨hi1, hi2, rfl, fun _ => rfl⟩
        · intro _; exact ⟨rfl, by simp, by simp⟩
        · intro hd; cases hd
      · intro _; exact ⟨i, hi1, hi2, hhit⟩
    · rw [if_neg hhit]
      refine h.afterMove t s.idx s.stop _ s.claimed (le_refl _) id ?_ h.stopHit
        h.claimedIdx h.claimedBy
      refine ⟨fun h' => (hidle h').elim, ?_, ?_, ?_, ?_, ?_⟩
      · rcases hw.origin with ho | ⟨j, h1, h2, h3⟩
        · exact Or.inl ho
        · rw [hpc] at h2
          simp only [Pc.bound] at h2 ⊢
          exact Or.inr ⟨j, h1, by omega, h3⟩
      · intro j hj; cases hj
      · intro j sol hj
        cases hj
        exact ⟨hi1, hi2, rfl, fun hm => absurd hm hhit⟩
      · intro hm; exact absurd hm hnomax
      · intro hd; cases hd
  · -- line 96: strict-greater update of the thread's own best
    rename_i i sol hpc
    obtain ⟨hi1, hi2, hsol, hkeep⟩ := hw.updatePc i sol hpc
    refine h.afterMove t s.idx s.stop _ s.claimed (le_refl _) id ?_ h.stopHit
      h.claimedIdx h.claimedBy
    refine ⟨fun h' => (hidle h').elim, ?_, ?_, ?_, ?_, ?_⟩
    · by_cases hgt : sol.sum > (s.workers t).solution_final.sum
      · simp only [if_pos hgt, Pc.bound]
        exact Or.inr ⟨i, hi2, hi1, hsol⟩
      · simp only [if_neg hgt, Pc.bound]
        rcases hw.origin with ho | ⟨j, h1, h2, h3⟩
        · exact Or.inl ho
        · rw [hpc] at h2
          simp only [Pc.bound] at h2
          exact Or.inr ⟨j, h1, by omega, h3⟩
    · intro j hj; cases hj
    · intro j sol' hj; cases hj
    · intro hm
      refine ⟨?_, by simp, by simp⟩
      by_cases hgt : sol.sum > (s.workers t).solution_final.sum
      · simp only [if_pos hgt] at hm
        have := hkeep hm
        rw [this] at hgt
        exact absurd hgt (lt_irrefl _)
      · simp only [if_neg hgt] at hm
        exact (hw.hitStop hm).1
    · intro hd; cases hd
  · exact h

theorem run_inv (homes : Nat) (max : Int) (pieces : List Int) (team : Nat)
    (sched : List Nat) :
    ∀ s, Inv homes max pieces team s → Inv homes max pieces team (run homes max pieces team sched s) := by
  induction sched with
  | nil => intro s h; exact h
  | cons t rest ih =>
    intro s h
    exact ih _ (step_inv homes max pieces team t s h)

/-! ## Effect of one action on the rest of the state -/

theorem step_idx_ge (homes : Nat) (max : Int) (pieces : List Int) (team t0 : Nat) (s : State) :
    s.idx ≤ (step homes max pieces team t0 s).idx := by
  unfold step
  split
  · split
    · split <;> exact le_refl _
    · split <;> exact Nat.le_succ _
    · split <;> exact le_refl _
    · exact le_refl _
    · exact le_refl _
  · exact le_refl _

theorem step_other_worker (homes : Nat) (max : Int) (pieces : List Int) (team t0 : Nat)
    (s : State) (t : Nat) (htt : t ≠ t0) :
    (step homes max pieces team t0 s).workers t = s.workers t := by
  unfold step
  split
  · split
    · split <;> simp only [Function.update_noteq htt]
    · split <;> simp only [Function.update_noteq htt]
    · split <;> simp only [Function.update_noteq htt]
    · simp only [Function.update_noteq htt]
    · rfl
  · rfl

theorem step_other_claims (homes : Nat) (max : Int) (pieces : List Int) (team t0 : Nat)
    (s : State) (t : Nat) (htt : t ≠ t0) :
    threadClaims (step homes max pieces team t0 s) t = threadClaims s t := by
  have hne : ¬ t0 = t := fun h => htt h.symm
  unfold step
  split
  · split
    · split <;> rfl
    · split
      · rfl
      · simp only [threadClaims, List.filter_append, List.filter_cons, List.filter_nil, hne,
          decide_False, Bool.false_eq_true, if_false, List.append_nil]
    · split <;> rfl
    · rfl
    · rfl
  · rfl

theorem step_stop_stays (homes : Nat) (max : Int) (pieces : List Int) (team t0 : Nat)
    (s : State) (hs : s.stop = true) : (step homes max pieces team t0 s).stop = true := by
  unfold step
  split
  · split <;> (try split) <;> first | exact hs | rfl
  · exact hs

/-! ## A thread's best is never a negative candidate -/

theorem initState_nonneg : BestNonneg initState := fun _ => Or.inl rfl

theorem step_nonneg (homes : Nat) (max : Int) (pieces : List Int) (team : Nat) (h0 : 0 ≤ max)
    (t0 : Nat) (s : State) (h : BestNonneg s) :
    BestNonneg (step homes max pieces team t0 s) := by
  intro t
  by_cases htt : t = t0
  swap
  · rw [step_other_worker homes max pieces team t0 s t htt]
    exact h t
  subst htt
  have ht := h t
  unfold step
  by_cases hteam : t < team
  swap
  · rw [if_neg hteam]; exact ht
  rw [if_pos hteam]
  split
  · split <;> simp only [Function.update_same] <;> exact ht
  · split <;> simp only [Function.update_same] <;> exact ht
  · rename_i i _
    by_cases hhit : (solution_i homes max pieces i).sum = max
    · rw [if_pos hhit]
      simp only [Function.update_same]
      right
      rw [hhit]; exact h0
    · rw [if_neg hhit]
      simp only [Function.update_same]
      exact ht
  · rename_i i sol _
    simp only [Function.update_same]
    by_cases hgt : sol.sum > (s.workers t).solution_final.sum
    · rw [if_pos hgt]
      right
      rcases ht with hn | hn
      · rw [hn, noSolution_sum] at hgt; omega
      · omega
    · rw [if_neg hgt]
      exact ht
  · exact ht

theorem run_nonneg (homes : Nat) (max : Int) (pieces : List Int) (team : Nat) (h0 : 0 ≤ max)
    (sched : List Nat) :
    ∀ s, BestNonneg s → BestNonneg (run homes max pieces team sched s) := by
  induction sched with
  | nil => intro s h; exact h
  | cons t rest ih =>
    intro s h
    exact ih _ (step_nonneg homes max pieces team h0 t s h)

/-! ## Following one start index through the parallel region -/

theorem Tracks.carry {homes : Nat} {max : Int} {pieces : List Int} {team w : Nat} {s : State}
    (htr : Tracks homes max pieces team w s) (t : Nat) (ht : t < team) (idx' : Nat)
    (stop' : Bool) (w' : Worker) (claimed' : List (Nat × Nat))
    (h1 : s.idx ≤ w → idx' ≤ w ∨ w'.pc = Pc.eval w)
    (h2 : ((s.workers t).pc = Pc.eval w ∨ ∃ sol, (s.workers t).pc = Pc.update w sol) →
      (w'.pc = Pc.eval w ∨ ∃ sol, w'.pc = Pc.update w sol) ∨
        w'.solution_final = solution_i homes max pieces w)
    (h3 : (s.workers t).solution_final = solution_i homes max pieces w →
      w'.solution_final = solution_i homes max pieces w) :
    Tracks homes max pieces team w ⟨idx', stop', Function.update s.workers t w', claimed'⟩ := by
  rcases htr with h | ⟨t', ht', h⟩ | ⟨t', ht', h⟩
  · rcases h1 h with h | h
    · exact Or.inl h
    · exact Or.inr (Or.inl ⟨t, ht, by simp only [Function.update_same]; exact Or.inl h⟩)
  · by_cases htt : t' = t
    · subst htt
      rcases h2 h with h | h
      · exact Or.inr (Or.inl ⟨t', ht, by simp only [Function.update_same]; exact h⟩)
      · exact Or.inr (Or.inr ⟨t', ht, by simp only [Function.update_same]; exact h⟩)
    · exact Or.inr (Or.inl ⟨t', ht', by simp only [Function.update_noteq htt]; exact h⟩)
  · by_cases htt : t' = t
    · subst htt
      exact Or.inr (Or.inr ⟨t', ht, by simp only [Function.update_same]; exact h3 h⟩)
    · exact Or.inr (Or.inr ⟨t', ht', by simp only [Function.update_noteq htt]; exact h⟩)

/-- The least start index with the largest sum is never lost: once handed out it is
held by a thread until it becomes that thread's `solution_final`, and stays so. -/
theorem step_tracks (homes : Nat) (max : Int) (pieces : List Int) (team : Nat)
    (hL : Legal homes max pieces) (w : Nat) (hwh : w < homes)
    (hpos : 0 ≤ (solution_i homes max pieces w).sum)
    (hmaxw : ∀ j, j < homes →
      (solution_i homes max pieces j).sum ≤ (solution_i homes max pieces w).sum)
    (hminw : ∀ j, j < w →
      (solution_i homes max pieces j).sum < (solution_i homes max pieces w).sum)
    (t : Nat) (s : State) (h : Inv homes max pieces team s)
    (htr : Tracks homes max pieces team w s) :
    Tracks homes max pieces team w (step homes max pieces team t s) := by
  unfold step
  by_cases ht : t < team
  swap
  · rw [if_neg ht]; exact htr
  rw [if_pos ht]
  have hw := h.workers t
  split
  · rename_i hpc
    by_cases hs : s.stop = true
    · rw [if_pos hs]
      refine htr.carry t ht s.idx s.stop _ s.claimed (fun h' => Or.inl h') ?_ (fun h' => h')
      rw [hpc]
      rintro (h' | ⟨_, h'⟩) <;> cases h'
    · rw [if_neg hs]
      refine htr.carry t ht s.idx s.stop _ s.claimed (fun h' => Or.inl h') ?_ (fun h' => h')
      rw [hpc]
      rintro (h' | ⟨_, h'⟩) <;> cases h'
  · rename_i hpc
    by_cases hx : s.idx ≥ homes
    · rw [if_pos hx]
      refine htr.carry t ht (s.idx + 1) s.stop _ s.claimed (fun h' => ?_) ?_ (fun h' => h')
      · omega
      · rw [hpc]
        rintro (h' | ⟨_, h'⟩) <;> cases h'
    · rw [if_neg hx]
      refine htr.carry t ht (s.idx + 1) s.stop _ (s.claimed ++ [(t, s.idx)]) (fun h' => ?_) ?_
        (fun h' => h')
      · by_cases he : s.idx = w
        · right; rw [he]
        · left; omega
      · rw [hpc]
        rintro (h' | ⟨_, h'⟩) <;> cases h'
  · rename_i i hpc
    obtain ⟨hi1, hi2⟩ := hw.evalPc i hpc
    have hnomax : (s.workers t).solution_final.sum ≠ max := fun hm => (hw.hitStop hm).2.2 i hpc
    by_cases hhit : (solution_i homes max pieces i).sum = max
    · rw [if_pos hhit]
      refine htr.carry t ht s.idx true _ s.claimed (fun h' => Or.inl h') ?_ ?_
      · rw [hpc]
        rintro (h' | ⟨_, h'⟩)
        · cases h'
          exact Or.inl (Or.inr ⟨_, rfl⟩)
        · cases h'
      · intro hsf
        exfalso
        apply hnomax
        have h1 := hmaxw i hi2
        have h2 := solution_i_sum_le_max homes max pieces hL w
        rw [hsf]
        omega
    · rw [if_neg hhit]
      refine htr.carry t ht s.idx s.stop _ s.claimed (fun h' => Or.inl h') ?_ (fun h' => h')
      rw [hpc]
      rintro (h' | ⟨_, h'⟩)
      · cases h'
        exact Or.inl (Or.inr ⟨_, rfl⟩)
      · cases h'
  · rename_i i sol hpc
    obtain ⟨hi1, hi2, hsol, hkeep⟩ := hw.updatePc i sol hpc
    refine htr.carry t ht s.idx s.stop _ s.claimed (fun h' => Or.inl h') ?_ ?_
    · rw [hpc]
      rintro (h' | ⟨sol', h'⟩)
      · cases h'
      · cases h'
        right
        by_cases hgt : sol.sum > (s.workers t).solution_final.sum
        · simp only [if_pos hgt]
          exact hsol
        · simp only [if_neg hgt]
          rcases hw.origin with ho | ⟨j, h1, h2, h3⟩
          · rw [ho, noSolution_sum, hsol] at hgt
            omega
          · rw [hpc] at h2
            simp only [Pc.bound] at h2
            by_cases hj : j < w
            · have := hminw j hj
              rw [h3, hsol] at hgt
              omega
            · have : j = w := by omega
              rw [h3, this]
    · intro hsf
      have h1 := hmaxw i hi2
      have hgt : ¬ sol.sum > (s.workers t).solution_final.sum := by
        rw [hsf, hsol]; omega
      simp only [if_neg hgt]
      exact hsf
  · exact htr

theorem run_tracks (homes : Nat) (max : Int) (pieces : List Int) (team : Nat)
    (hL : Legal homes max pieces) (w : Nat) (hwh : w < homes)
    (hpos : 0 ≤ (solution_i homes max pieces w).sum)
    (hmaxw : ∀ j, j < homes →
      (solution_i homes max pieces j).sum ≤ (solution_i homes max pieces w).sum)
    (hminw : ∀ j, j < w →
      (solution_i homes max pieces j).sum < (solution_i homes max pieces w).sum)
    (sched : List Nat) :
    ∀ s, Inv homes max pieces team s → Tracks homes max pieces team w s →
      Tracks homes max pieces team w (run homes max pieces team sched s) := by
  induction sched with
  | nil => intro s _ h; exact h
  | cons t rest ih =>
    intro s h htr
    exact ih _ (step_inv homes max pieces team t s h)
      (step_tracks homes max pieces team hL w hwh hpos hmaxw hminw t s h htr)

theorem mem_thread_solutions (num_threads : Nat) (s : State) (x : Solution) :
    x ∈ thread_solutions num_threads s ↔
      ∃ t, t < num_threads ∧ (s.workers t).solution_final = x := by
  simp [thread_solutions]

/-- After the join, the reduction over the slots is the first best expansion. -/
theorem parallel_firstBest (homes : Nat) (max : Int) (pieces : List Int)
    (hL : Legal homes max pieces) (team num_threads : Nat) (hteam : 1 ≤ team)
    (hslots : team ≤ num_threads) (sched : List Nat)
    (hfin : finished team (run homes max pieces team sched initState))
    (r : Solution) (hr : FirstBest homes max pieces homes r) :
    parallelAnswer num_threads (run homes max pieces team sched initState) = r := by
  have hinv := run_inv homes max pieces team sched initState
    (initState_inv homes max pieces team hL)
  have hnn := run_nonneg homes max pieces team hL.2.2 sched initState initState_nonneg
  generalize hs : run homes max pieces team sched initState = s at hinv hfin hnn
  obtain ⟨hmem, hgood⟩ := best_solution_spec (thread_solutions num_threads s)
  rcases hr with ⟨hr, hall⟩ | ⟨w, hwh, hrw, hpos, hmaxw, hminw⟩
  · rw [hr]
    rcases hmem with hb | hb
    · exact hb
    · obtain ⟨t, _, ht⟩ := (mem_thread_solutions num_threads s _).mp hb
      rcases hnn t with hn | hn
      · rw [parallelAnswer, ← ht, hn]
      · exfalso
        rcases (hinv.workers t).origin with ho | ⟨i, h1, _, h3⟩
        · rw [ho, noSolution_sum] at hn; omega
        · rw [h3] at hn
          have := hall i h1
          omega
  · rw [hrw] at hpos hmaxw hminw
    have htr : Tracks homes max pieces team w s := by
      rw [← hs]
      exact run_tracks homes max pieces team hL w hwh hpos hmaxw hminw sched initState
        (initState_inv homes max pieces team hL) (Or.inl (Nat.zero_le _))
    have hslot : ∃ t, t < team ∧ (s.workers t).solution_final = solution_i homes max pieces w := by
      rcases htr with h | ⟨t, ht, h⟩ | h
      · exfalso
        have hd := hfin 0 (by omega)
        rcases (hinv.workers 0).doneWhy hd with h' | h'
        · obtain ⟨j, hj1, hj2, hj3⟩ := hinv.stopHit h'
          have h1 := hmaxw j hj2
          have h2 := solution_i_sum_le_max homes max pieces hL w
          have h3 : ¬ j < w := fun hlt => by have := hminw j hlt; omega
          omega
        · omega
      · exfalso
        have hd := hfin t ht
        rcases h with h | ⟨_, h⟩ <;> rw [hd] at h <;> cases h
      · exact h
    obtain ⟨t, ht, hsf⟩ := hslot
    have hin : solution_i homes max pieces w ∈ thread_solutions num_threads s :=
      (mem_thread_solutions num_threads s _).mpr ⟨t, by omega, hsf⟩
    have hg := hgood _ hin
    unfold AtLeastAsGood at hg
    rw [hrw]
    change best_solution (thread_solutions num_threads s) = _
    rcases hmem with hb | hb
    · rw [hb, noSolution_sum] at hg; omega
    · obtain ⟨t', _, ht'⟩ := (mem_thread_solutions num_threads s _).mp hb
      rcases (hinv.workers t').origin with ho | ⟨i, h1, _, h3⟩
      · rw [← ht', ho, noSolution_sum] at hg; omega
      · rw [← ht', h3] at hg ⊢
        have hle := hmaxw i h1
        have hsi := solution_i_start homes max pieces i (by omega)
        have hsw := solution_i_start homes max pieces w hpos
        have hi : i = w := by
          rw [hsi, hsw] at hg
          by_contra hne
          have hlt : i < w := by omega
          have := hminw i hlt
          omega
        rw [hi]

/-! ## Every execution can be completed -/

theorem step_remaining (homes : Nat) (max : Int) (pieces : List Int) (team t : Nat) (s : State)
    (ht : t < team) (hnd : (s.workers t).pc ≠ Pc.done) :
    remaining homes (step homes max pieces team t s) t < remaining homes s t := by
  unfold step remaining
  rw [if_pos ht]
  split
  · rename_i hpc
    by_cases hs : s.stop = true
    · rw [if_pos hs]; simp only [Function.update_same, hpc, Pc.phase]; omega
    · rw [if_neg hs]; simp only [Function.update_same, hpc, Pc.phase]; omega
  · rename_i hpc
    by_cases hx : s.idx ≥ homes
    · rw [if_pos hx]; simp only [Function.update_same, hpc, Pc.phase]; omega
    · rw [if_neg hx]; simp only [Function.update_same, hpc, Pc.phase]; omega
  · rename_i i hpc
    by_cases hhit : (solution_i homes max pieces i).sum = max
    · rw [if_pos hhit]; simp only [Function.update_same, hpc, Pc.phase]; omega
    · rw [if_neg hhit]; simp only [Function.update_same, hpc, Pc.phase]; omega
  · rename_i i sol hpc
    simp only [Function.update_same, hpc, Pc.phase]; omega
  · rename_i hpc
    exact absurd hpc hnd

theorem step_done_stays (homes : Nat) (max : Int) (pieces : List Int) (team t : Nat) (s : State)
    (t' : Nat) (hd : (s.workers t').pc = Pc.done) :
    ((step homes max pieces team t s).workers t').pc = Pc.done := by
  by_cases htt : t' = t
  · subst htt
    unfold step
    by_cases ht : t' < team
    · rw [if_pos ht]
      split <;> rename_i hpc <;> first | exact hd | (rw [hd] at hpc; cases hpc)
    · rw [if_neg ht]; exact hd
  · unfold step
    by_cases ht : t < team
    · rw [if_pos ht]
      split
      · split <;> simp only [Function.update_noteq htt] <;> exact hd
      · split <;> simp only [Function.update_noteq htt] <;> exact hd
      · split <;> simp only [Function.update_noteq htt] <;> exact hd
      · simp only [Function.update_noteq htt]; exact hd
      · exact hd
    · rw [if_neg ht]; exact hd

theorem run_done_stays (homes : Nat) (max : Int) (pieces : List Int) (team : Nat)
    (sched : List Nat) (t' : Nat) :
    ∀ s : State, (s.workers t').pc = Pc.done →
      ((run homes max pieces team sched s).workers t').pc = Pc.done := by
  induction sched with
  | nil => intro s h; exact h
  | cons t rest ih =>
    intro s h
    exact ih _ (step_done_stays homes max pieces team t s t' h)

theorem run_append (homes : Nat) (max : Int) (pieces : List Int) (team : Nat)
    (a b : List Nat) (s : State) :
    run homes max pieces team (a ++ b) s
      = run homes max pieces team b (run homes max pieces team a s) := by
  simp only [run, List.foldl_append]

/-- Scheduled alone for long enough, a thread of the team leaves the loop. -/
theorem run_alone_done (homes : Nat) (max : Int) (pieces : List Int) (team t : Nat)
    (ht : t < team) :
    ∀ (n : Nat) (s : State), remaining homes s t ≤ n →
      ((run homes max pieces team (List.replicate n t) s).workers t).pc = Pc.done := by
  intro n
  induction n with
  | zero =>
    intro s h
    have h0 : (s.workers t).pc.phase = 0 := by unfold remaining at h; omega
    cases hpc : (s.workers t).pc <;> rw [hpc] at h0 <;> simp only [Pc.phase] at h0 <;>
      first | omega | exact hpc
  | succ n ih =>
    intro s h
    by_cases hd : (s.workers t).pc = Pc.done
    · exact run_done_stays homes max pieces team _ t s hd
    · have hlt := step_remaining homes max pieces team t s ht hd
      exact ih (step homes max pieces team t s) (by omega)

theorem run_can_finish_upto (homes : Nat) (max : Int) (pieces : List Int) (team : Nat) :
    ∀ k, k ≤ team → ∀ s : State, ∃ sched : List Nat,
      ∀ t, t < k → ((run homes max pieces team sched s).workers t).pc = Pc.done := by
  intro k
  induction k with
  | zero => intro _ s; exact ⟨[], by intro t ht; omega⟩
  | succ k ih =>
    intro hk s
    obtain ⟨sched, hs⟩ := ih (by omega) s
    refine ⟨sched ++ List.replicate (remaining homes (run homes max pieces team sched s) k) k, ?_⟩
    intro t ht
    rw [run_append]
    by_cases htk : t < k
    · exact run_done_stays homes max pieces team _ t _ (hs t htk)
    · have : t = k := by omega
      subst this
      exact run_alone_done homes max pieces team t (by omega) _ _ (le_refl _)

/-- From every state the team can run to completion. -/
theorem run_can_finish (homes : Nat) (max : Int) (pieces : List Int) (team : Nat) (s : State) :
    ∃ sched : List Nat, finished team (run homes max pieces team sched s) :=
  run_can_finish_upto homes max pieces team team (le_refl _) s

/-! ## Shared consequences -/

/-- Every answer of the search, serial or parallel, is the serial result. -/
theorem searchAnswer_eq_serial (homes : Nat) (max : Int) (pieces : List Int)
    (hL : Legal homes max pieces) (r : Solution) (hr : IsSearchAnswer homes max pieces r) :
    r = serial homes max pieces := by
  rcases hr with h | ⟨team, num_threads, sched, h1, h2, h3, h4⟩
  · exact h
  · rw [h4]
    exact parallel_firstBest homes max pieces hL team num_threads h1 h2 sched h3 _
      (serial_firstBest homes max pieces hL)

theorem searchAnswer_firstBest (homes : Nat) (max : Int) (pieces : List Int)
    (hL : Legal homes max pieces) (r : Solution) (hr : IsSearchAnswer homes max pieces r) :
    FirstBest homes max pieces homes r := by
  rw [searchAnswer_eq_serial homes max pieces hL r hr]
  exact serial_firstBest homes max pieces hL

/-- When no total can overflow, a first best expansion with a non-negative sum is a
genuine run within `max`. -/
theorem firstBest_run (homes : Nat) (max : Int) (pieces : List Int)
    (hL : Legal homes max pieces) (hN : NoOverflow max pieces) (r : Solution) (w : Nat)
    (hw : w < homes) (hrw : r = solution_i homes max pieces w) (hpos : 0 ≤ r.sum) :
    ∃ e : Nat, w ≤ e ∧ e < homes ∧ r = ⟨runSum pieces w e, w, e⟩ ∧ runSum pieces w e ≤ max := by
  rcases solution_i_spec homes max pieces hL hN w hw with ⟨_, h2⟩ | ⟨_, e, h1, h2, heq, h3, _⟩
  · rw [hrw, h2, noSolution_sum] at hpos; omega
  · exact ⟨e, h1, h2, by rw [hrw, heq], h3⟩

theorem exists_index_of_mem (pieces : List Int) (p : Int) (hp : p ∈ pieces) :
    ∃ j, j < pieces.length ∧ pieceAt pieces j = p := by
  obtain ⟨j, hj, hjp⟩ := List.getElem_of_mem hp
  exact ⟨j, hj, by rw [pieceAt_eq_getElem pieces j hj, hjp]⟩

/-! ## The claims -/

/-- C1: on every legal input, for every team of at least one thread (within the
allocated slots) and every interleaving of the threads' actions, the reduction over
the slots after the join equals the result of the serial loop; and every partial
execution can be continued to such a join. Both programs are taken with their 32-bit
arithmetic, so this holds on inputs whose totals overflow as well. -/
theorem parallel_search_equals_serial (homes : Nat) (max : Int) (pieces : List Int)
    (hL : Legal homes max pieces) (team num_threads : Nat) (hteam : 1 ≤ team)
    (hslots : team ≤ num_threads) :
    (∀ sched, finished team (run homes max pieces team sched initState) →
      parallelAnswer num_threads (run homes max pieces team sched initState)
        = serial homes max pieces) ∧
    (∀ sched, ∃ more, finished team (run homes max pieces team (sched ++ more) initState)) := by
  constructor
  · intro sched hfin
    exact parallel_firstBest homes max pieces hL team num_threads hteam hslots sched hfin _
      (serial_firstBest homes max pieces hL)
  · intro sched
    obtain ⟨more, hmore⟩ :=
      run_can_finish homes max pieces team (run homes max pieces team sched initState)
    exact ⟨more, by rw [run_append]; exact hmore⟩

theorem parallel_search_equals_serial_witness :
    Legal 2 2147483647 [2147483647, 1] ∧
    serial 2 2147483647 [2147483647, 1] = ⟨1, 1, 1⟩ ∧
    finished 2 (run 2 2147483647 [2147483647, 1] 2
      [0, 1, 0, 1, 0, 1, 0, 1, 0, 1, 0, 1, 0, 1, 0, 1] initState) ∧
    parallelAnswer 3 (run 2 2147483647 [2147483647, 1] 2
      [0, 1, 0, 1, 0, 1, 0, 1, 0, 1, 0, 1, 0, 1, 0, 1] initState)
      = serial 2 2147483647 [2147483647, 1] :=
  ⟨by decide, by decide, by decide,
    (parallel_search_equals_serial 2 2147483647 [2147483647, 1] (by decide) 2 3 (by decide)
      (by decide)).1 _ (by decide)⟩

/-- C2 (as stated) fails: with `homes = 2`, `max = 10`, `pieces = [5, 2147483647]` the
first piece fits, but the total `5 + 2147483647` wraps to `-2147483644`, which is
neither above `max` (no rollback) nor above `-1`; the serial loop returns
`(-1, -1, -1)` although the run `0..0` totals `5 <= max`. -/
theorem serial_optimal_counterexample :
    Legal 2 10 [5, 2147483647] ∧ (∃ p, p ∈ [5, 2147483647] ∧ p ≤ (10 : Int)) ∧
    solution_i 2 10 [5, 2147483647] 0 = ⟨-2147483644, 0, 1⟩ ∧
    serial 2 10 [5, 2147483647] = ⟨-1, -1, -1⟩ ∧
    runSum [5, 2147483647] 0 0 ≤ 10 ∧
    ¬ runSum [5, 2147483647] 0 0 ≤ (serial 2 10 [5, 2147483647]).sum := by
  refine ⟨by decide, ⟨5, by decide, by decide⟩, by decide, by decide, by decide, by decide⟩

/-- C2 (amended): on a legal input with at least one piece within `max` and with
`max` plus the largest piece below `2^31`, the serial result is a run `start..finish`
inside the street whose total is its `sum`, within `max`, and no run within `max` has
a larger total. -/
theorem serial_optimal (homes : Nat) (max : Int) (pieces : List Int)
    (hL : Legal homes max pieces) (hN : NoOverflow max pieces)
    (hsome : ∃ p, p ∈ pieces ∧ p ≤ max) :
    ∃ s e : Nat, (serial homes max pieces).start = s ∧ (serial homes max pieces).finish = e ∧
      s ≤ e ∧ e < homes ∧
      (serial homes max pieces).sum = runSum pieces s e ∧
      (serial homes max pieces).sum ≤ max ∧
      ∀ s' e' : Nat, s' ≤ e' → e' < homes → runSum pieces s' e' ≤ max →
        runSum pieces s' e' ≤ (serial homes max pieces).sum := by
  obtain ⟨p, hp, hpm⟩ := hsome
  obtain ⟨j, hj, hjp⟩ := exists_index_of_mem pieces p hp
  have hlen := hL.1
  rcases serial_firstBest homes max pieces hL with ⟨_, hall⟩ | ⟨w, hw, hrw, hpos, hmaxw, _⟩
  · have := (solution_i_neg_iff homes max pieces hL hN j (by omega)).mp (hall j (by omega))
    omega
  · obtain ⟨e, h1, h2, heq, hle⟩ := firstBest_run homes max pieces hL hN _ w hw hrw hpos
    refine ⟨w, e, by rw [heq], by rw [heq], h1, h2, by rw [heq], by rw [heq]; exact hle, ?_⟩
    intro s' e' hse he hrun
    have h3 := (solution_i_maximal homes max pieces hL hN s' e' hse he hrun).1
    have h4 := hmaxw s' (by omega)
    omega

theorem serial_optimal_witness :
    Legal 5 10 [3, 4, 2, 5, 9] ∧ NoOverflow 10 [3, 4, 2, 5, 9] ∧
    ∃ s e : Nat, (serial 5 10 [3, 4, 2, 5, 9]).start = s ∧
      (serial 5 10 [3, 4, 2, 5, 9]).finish = e ∧ s ≤ e ∧ e < 5 ∧
      (serial 5 10 [3, 4, 2, 5, 9]).sum = runSum [3, 4, 2, 5, 9] s e ∧
      (serial 5 10 [3, 4, 2, 5, 9]).sum ≤ 10 ∧
      ∀ s' e' : Nat, s' ≤ e' → e' < 5 → runSum [3, 4, 2, 5, 9] s' e' ≤ 10 →
        runSum [3, 4, 2, 5, 9] s' e' ≤ (serial 5 10 [3, 4, 2, 5, 9]).sum :=
  ⟨by decide, ⟨9, by decide, by decide⟩,
    serial_optimal 5 10 [3, 4, 2, 5, 9] (by decide) ⟨9, by decide, by decide⟩
      ⟨3, by decide, by decide⟩⟩

/-- C3 (as stated) fails: with `homes = 2`, `max = 2000000000`,
`pieces = [1500000000, 1500000000]` the serial loop returns `(1500000000, 1, 1)`,
although the smaller start `0` has the maximal expansion `0..0` with the same sum
`1500000000`: computing it, the total `3000000000` wraps to `-1294967296` and the
candidate of start `0` is lost. -/
theorem serial_start_least_counterexample :
    Legal 2 2000000000 [1500000000, 1500000000] ∧
    serial 2 2000000000 [1500000000, 1500000000] = ⟨1500000000, 1, 1⟩ ∧
    solutionExact 2 2000000000 [1500000000, 1500000000] 0 = ⟨1500000000, 0, 0⟩ ∧
    solution_i 2 2000000000 [1500000000, 1500000000] 0 = ⟨-1294967296, 0, 1⟩ ∧
    ((0 : Nat) : Int) < (serial 2 2000000000 [1500000000, 1500000000]).start ∧
    ¬ (solutionExact 2 2000000000 [1500000000, 1500000000] 0).sum
        < (serial 2 2000000000 [1500000000, 1500000000]).sum := by
  refine ⟨by decide, by decide, by decide, by decide, by decide, by decide⟩

/-- C3 (amended): on a legal input with `max` plus the largest piece below `2^31`, the
serial result is the sentinel or the expansion of its own start index, and every
smaller start index has an expansion with a strictly smaller sum: ties on the sum go
to the smallest start. -/
theorem serial_start_least (homes : Nat) (max : Int) (pieces : List Int)
    (hL : Legal homes max pieces) (hN : NoOverflow max pieces) :
    (serial homes max pieces = noSolution ∨
      ∃ w : Nat, w < homes ∧ (serial homes max pieces).start = w ∧
        solutionExact homes max pieces w = serial homes max pieces) ∧
    ∀ s' : Nat, (s' : Int) < (serial homes max pieces).start →
      (solutionExact homes max pieces s').sum < (serial homes max pieces).sum := by
  rcases serial_firstBest homes max pieces hL with ⟨hr, _⟩ | ⟨w, hw, hrw, hpos, _, hminw⟩
  · refine ⟨Or.inl hr, ?_⟩
    intro s' hs
    rw [hr] at hs
    simp only [noSolution] at hs
    omega
  · obtain ⟨e, _, _, heq, _⟩ := firstBest_run homes max pieces hL hN _ w hw hrw hpos
    have hstart : (serial homes max pieces).start = w := by rw [heq]
    refine ⟨Or.inr ⟨w, hw, hstart, ?_⟩, ?_⟩
    · rw [← solution_i_exact_of_noOverflow homes max pieces hL hN w hw]
      exact hrw.symm
    · intro s' hs
      rw [hstart] at hs
      have hs' : s' < w := by omega
      rw [← solution_i_exact_of_noOverflow homes max pieces hL hN s' (by omega)]
      exact hminw s' hs'

theorem serial_start_least_witness :
    Legal 5 10 [3, 4, 2, 5, 9] ∧ NoOverflow 10 [3, 4, 2, 5, 9] ∧
    serial 5 10 [3, 4, 2, 5, 9] = ⟨9, 0, 2⟩ ∧
    solutionExact 5 10 [3, 4, 2, 5, 9] 4 = ⟨9, 4, 4⟩ ∧
    ((serial 5 10 [3, 4, 2, 5, 9] = noSolution ∨
      ∃ w : Nat, w < 5 ∧ (serial 5 10 [3, 4, 2, 5, 9]).start = w ∧
        solutionExact 5 10 [3, 4, 2, 5, 9] w = serial 5 10 [3, 4, 2, 5, 9]) ∧
    ∀ s' : Nat, (s' : Int) < (serial 5 10 [3, 4, 2, 5, 9]).start →
      (solutionExact 5 10 [3, 4, 2, 5, 9] s').sum < (serial 5 10 [3, 4, 2, 5, 9]).sum) :=
  ⟨by decide, ⟨9, by decide, by decide⟩, by decide, by decide,
    serial_start_least 5 10 [3, 4, 2, 5, 9] (by decide) ⟨9, by decide, by decide⟩⟩

/-- C4 (as stated) fails: with `homes = 2`, `max = 2147483647`,
`pieces = [2147483647, 1]` the run `0..0` totals exactly `max`, but at start `0` the
loop goes on, `2147483647 + 1` wraps to `-2147483648`, and the serial loop returns
`(1, 1, 1)`. -/
theorem exact_hit_smallest_start_counterexample :
    Legal 2 2147483647 [2147483647, 1] ∧
    (∃ s e : Nat, s ≤ e ∧ e < 2 ∧ runSum [2147483647, 1] s e = 2147483647) ∧
    IsSearchAnswer 2 2147483647 [2147483647, 1] (serial 2 2147483647 [2147483647, 1]) ∧
    solution_i 2 2147483647 [2147483647, 1] 0 = ⟨-2147483648, 0, 1⟩ ∧
    serial 2 2147483647 [2147483647, 1] = ⟨1, 1, 1⟩ ∧
    (serial 2 2147483647 [2147483647, 1]).sum ≠ 2147483647 := by
  refine ⟨by decide, ⟨0, 0, by decide, by decide, by decide⟩, Or.inl rfl, by decide, by decide,
    by decide⟩

/-- C4 (amended): on a legal input with `max` plus the largest piece below `2^31` in
which some run of houses totals exactly `max`, every answer of the search (serial, or
parallel after any complete execution) has sum `max`, and its start is the smallest
index from which some run totals exactly `max`. -/
theorem exact_hit_smallest_start (homes : Nat) (max : Int) (pieces : List Int)
    (hL : Legal homes max pieces) (hN : NoOverflow max pieces)
    (hex : ∃ s e : Nat, s ≤ e ∧ e < homes ∧ runSum pieces s e = max)
    (r : Solution) (hr : IsSearchAnswer homes max pieces r) :
    r.sum = max ∧
    ∃ s0 : Nat, r.start = s0 ∧
      (∃ e : Nat, s0 ≤ e ∧ e < homes ∧ runSum pieces s0 e = max) ∧
      ∀ s e : Nat, s ≤ e → e < homes → runSum pieces s e = max → s0 ≤ s := by
  have hexact : ∀ s e : Nat, s ≤ e → e < homes → runSum pieces s e = max →
      (solution_i homes max pieces s).sum = max := by
    intro s e hse he hrun
    have h1 := (solution_i_maximal homes max pieces hL hN s e hse he (by omega)).1
    have h2 := solution_i_sum_le_max homes max pieces hL s
    omega
  obtain ⟨s, e, hse, he, hrun⟩ := hex
  have hs := hexact s e hse he hrun
  rcases searchAnswer_firstBest homes max pieces hL r hr with
    ⟨_, hall⟩ | ⟨w, hw, hrw, hpos, hmaxw, hminw⟩
  · have := hall s (by omega)
    have := hL.2.2
    omega
  · obtain ⟨e0, h1, h2, heq, hle⟩ := firstBest_run homes max pieces hL hN r w hw hrw hpos
    have hsum : r.sum = max := by
      have h3 := hmaxw s (by omega)
      have h4 := solution_i_sum_le_max homes max pieces hL w
      rw [← hrw] at h4
      omega
    refine ⟨hsum, w, by rw [heq], ⟨e0, h1, h2, ?_⟩, ?_⟩
    · rw [heq] at hsum; exact hsum
    · intro s' e' hse' he' hrun'
      by_contra hlt
      have h5 := hminw s' (by omega)
      have h6 := hexact s' e' hse' he' hrun'
      omega

theorem exact_hit_smallest_start_witness :
    Legal 5 7 [3, 4, 9, 5, 2] ∧ NoOverflow 7 [3, 4, 9, 5, 2] ∧
    (∃ s e : Nat, s ≤ e ∧ e < 5 ∧ runSum [3, 4, 9, 5, 2] s e = 7) ∧
    IsSearchAnswer 5 7 [3, 4, 9, 5, 2] (serial 5 7 [3, 4, 9, 5, 2]) ∧
    (serial 5 7 [3, 4, 9, 5, 2]).sum = 7 ∧
    ∃ s0 : Nat, (serial 5 7 [3, 4, 9, 5, 2]).start = s0 ∧
      (∃ e : Nat, s0 ≤ e ∧ e < 5 ∧ runSum [3, 4, 9, 5, 2] s0 e = 7) ∧
      ∀ s e : Nat, s ≤ e → e < 5 → runSum [3, 4, 9, 5, 2] s e = 7 → s0 ≤ s :=
  ⟨by decide, ⟨9, by decide, by decide⟩, ⟨3, 4, by decide, by decide, by decide⟩, Or.inl rfl,
    exact_hit_smallest_start 5 7 [3, 4, 9, 5, 2] (by decide) ⟨9, by decide, by decide⟩
      ⟨3, 4, by decide, by decide, by decide⟩ _ (Or.inl rfl)⟩

/-- C5 (as stated) fails: with `homes = 2`, `max = 10`, `pieces = [5, 2147483647]` the
piece `5` is within `max`, yet the serial loop returns `(-1, -1, -1)`: the only
candidate that is not the sentinel has the wrapped sum `-2147483644`. -/
theorem no_solution_iff_all_exceed_counterexample :
    Legal 2 10 [5, 2147483647] ∧
    IsSearchAnswer 2 10 [5, 2147483647] (serial 2 10 [5, 2147483647]) ∧
    serial 2 10 [5, 2147483647] = noSolution ∧
    (∃ p, p ∈ [5, 2147483647] ∧ p ≤ (10 : Int)) ∧
    ¬ (∀ p, p ∈ [5, 2147483647] → (10 : Int) < p) ∧
    ¬ 0 ≤ (serial 2 10 [5, 2147483647]).sum := by
  refine ⟨by decide, Or.inl rfl, by decide, ⟨5, by decide, by decide⟩, by decide, by decide⟩

/-- C5 (amended): on a legal input with `max` plus the largest piece below `2^31`,
every answer of the search (serial, or parallel after any complete execution) is the
sentinel `(-1, -1, -1)` exactly when every piece exceeds `max`; as soon as one piece is
within `max` the returned sum is non-negative. -/
theorem no_solution_iff_all_exceed (homes : Nat) (max : Int) (pieces : List Int)
    (hL : Legal homes max pieces) (hN : NoOverflow max pieces) (r : Solution)
    (hr : IsSearchAnswer homes max pieces r) :
    (r = noSolution ↔ ∀ p, p ∈ pieces → max < p) ∧
    ((∃ p, p ∈ pieces ∧ p ≤ max) → 0 ≤ r.sum) := by
  have hlen := hL.1
  rcases searchAnswer_firstBest homes max pieces hL r hr with
    ⟨hrn, hall⟩ | ⟨w, hw, hrw, hpos, _, _⟩
  · have hexc : ∀ p, p ∈ pieces → max < p := by
      intro p hp
      obtain ⟨j, hj, hjp⟩ := exists_index_of_mem pieces p hp
      have := (solution_i_neg_iff homes max pieces hL hN j (by omega)).mp (hall j (by omega))
      omega
    refine ⟨⟨fun _ => hexc, fun _ => hrn⟩, ?_⟩
    rintro ⟨p, hp, hpm⟩
    have := hexc p hp
    omega
  · have hne : r ≠ noSolution := by
      intro h
      rw [h, noSolution_sum] at hpos
      omega
    refine ⟨⟨fun h => absurd h hne, ?_⟩, fun _ => hpos⟩
    intro hexc
    exfalso
    have hwin : pieceAt pieces w ∈ pieces := by
      rw [pieceAt_eq_getElem pieces w (by omega)]
      exact List.getElem_mem _
    have h1 := hexc _ hwin
    have h2 := (solution_i_eq_noSolution_iff homes max pieces hL hN w hw).mpr h1
    exact hne (by rw [hrw, h2])

theorem no_solution_iff_all_exceed_witness :
    Legal 3 5 [6, 7, 8] ∧ NoOverflow 5 [6, 7, 8] ∧
    IsSearchAnswer 3 5 [6, 7, 8] (serial 3 5 [6, 7, 8]) ∧
    serial 3 5 [6, 7, 8] = noSolution ∧
    ((serial 3 5 [6, 7, 8] = noSolution ↔ ∀ p, p ∈ [6, 7, 8] → (5 : Int) < p) ∧
      ((∃ p, p ∈ [6, 7, 8] ∧ p ≤ (5 : Int)) → 0 ≤ (serial 3 5 [6, 7, 8]).sum)) :=
  ⟨by decide, ⟨8, by decide, by decide⟩, Or.inl rfl, by decide,
    no_solution_iff_all_exceed 3 5 [6, 7, 8] (by decide) ⟨8, by decide, by decide⟩ _
      (Or.inl rfl)⟩

/-- C6 (as stated) fails: with `homes = 3`, `max = 2147483647`,
`pieces = [2147483647, 2147483647, 5]` and start `0` the totals wrap twice and the
candidate is `(3, 0, 2)`: its sum is non-negative, but the run `0..2` totals
`4294967299`, which is neither `3` nor within `max`. -/
theorem solution_i_invariant_counterexample :
    Legal 3 2147483647 [2147483647, 2147483647, 5] ∧
    solution_i 3 2147483647 [2147483647, 2147483647, 5] 0 = ⟨3, 0, 2⟩ ∧
    0 ≤ (solution_i 3 2147483647 [2147483647, 2147483647, 5] 0).sum ∧
    runSum [2147483647, 2147483647, 5] 0 2 = 4294967299 ∧
    (solution_i 3 2147483647 [2147483647, 2147483647, 5] 0).sum
      ≠ runSum [2147483647, 2147483647, 5] 0 2 ∧
    ¬ runSum [2147483647, 2147483647, 5] 0 2 ≤ 2147483647 := by
  refine ⟨by decide, by decide, by decide, by decide, by decide, by decide⟩

/-- C6 (amended): on a legal input with `max` plus the largest piece below `2^31`, for
every start index `i` below `homes`, a candidate with a non-negative sum starts at
`i`, ends at an index between `i` and `homes-1` (so it never wraps past the last
house), has the total of that run as its sum, and is within `max`. -/
theorem solution_i_invariant (homes : Nat) (max : Int) (pieces : List Int)
    (hL : Legal homes max pieces) (hN : NoOverflow max pieces) (i : Nat) (hi : i < homes)
    (hpos : 0 ≤ (solution_i homes max pieces i).sum) :
    (solution_i homes max pieces i).start = i ∧
    ∃ e : Nat, (solution_i homes max pieces i).finish = e ∧ i ≤ e ∧ e ≤ homes - 1 ∧
      (solution_i homes max pieces i).sum = runSum pieces i e ∧
      (solution_i homes max pieces i).sum ≤ max := by
  obtain ⟨e, h1, h2, heq, hle⟩ := firstBest_run homes max pieces hL hN _ i hi rfl hpos
  rw [heq]
  exact ⟨rfl, e, rfl, h1, by omega, rfl, hle⟩

theorem solution_i_invariant_witness :
    Legal 5 10 [3, 4, 2, 5, 9] ∧ NoOverflow 10 [3, 4, 2, 5, 9] ∧ 1 < 5 ∧
    0 ≤ (solution_i 5 10 [3, 4, 2, 5, 9] 1).sum ∧
    (solution_i 5 10 [3, 4, 2, 5, 9] 1).start = (1 : Nat) ∧
    ∃ e : Nat, (solution_i 5 10 [3, 4, 2, 5, 9] 1).finish = e ∧ 1 ≤ e ∧ e ≤ 5 - 1 ∧
      (solution_i 5 10 [3, 4, 2, 5, 9] 1).sum = runSum [3, 4, 2, 5, 9] 1 e ∧
      (solution_i 5 10 [3, 4, 2, 5, 9] 1).sum ≤ 10 :=
  ⟨by decide, ⟨9, by decide, by decide⟩, by decide, by decide,
    solution_i_invariant 5 10 [3, 4, 2, 5, 9] (by decide) ⟨9, by decide, by decide⟩ 1
      (by decide) (by decide)⟩

/-- C7 (as stated) fails: with `homes = 3`, `max = 2147483647`,
`pieces = [2147483647, 2147483647, 5]` and start `0`, the first piece is within `max`
and the largest index whose run from `0` stays within `max` is `0` (the run `0..1`
already totals `4294967294`), but the candidate `(3, 0, 2)` ends at index `2`. -/
theorem solution_i_maximal_run_counterexample :
    Legal 3 2147483647 [2147483647, 2147483647, 5] ∧
    pieceAt [2147483647, 2147483647, 5] 0 ≤ 2147483647 ∧
    solution_i 3 2147483647 [2147483647, 2147483647, 5] 0 = ⟨3, 0, 2⟩ ∧
    runSum [2147483647, 2147483647, 5] 0 0 ≤ 2147483647 ∧
    ¬ runSum [2147483647, 2147483647, 5] 0 1 ≤ 2147483647 ∧
    ¬ runSum [2147483647, 2147483647, 5] 0 2 ≤ 2147483647 ∧
    (solution_i 3 2147483647 [2147483647, 2147483647, 5] 0).finish ≠ ((0 : Nat) : Int) := by
  refine ⟨by decide, by decide, by decide, by decide, by decide, by decide, by decide⟩

/-- C7 (amended): on a legal input with `max` plus the largest piece below `2^31`, for
every start index `i` below `homes`, the expansion is the sentinel exactly when
`pieces[i] > max`; otherwise it is the run `i..e` where `e` is the largest index of the
street whose run from `i` stays within `max`, and this `e` is the last house or the
next house would overshoot. -/
theorem solution_i_maximal_run (homes : Nat) (max : Int) (pieces : List Int)
    (hL : Legal homes max pieces) (hN : NoOverflow max pieces) (i : Nat) (hi : i < homes) :
    (solution_i homes max pieces i = noSolution ↔ pieceAt pieces i > max) ∧
    (pieceAt pieces i ≤ max →
      ∃ e : Nat, i ≤ e ∧ e < homes ∧
        solution_i homes max pieces i = ⟨runSum pieces i e, i, e⟩ ∧
        runSum pieces i e ≤ max ∧
        (∀ e' : Nat, i ≤ e' → e' < homes → runSum pieces i e' ≤ max → e' ≤ e) ∧
        (e + 1 = homes ∨
          (e + 1 < homes ∧
            (solution_i homes max pieces i).sum + pieceAt pieces (e + 1) > max))) := by
  refine ⟨solution_i_eq_noSolution_iff homes max pieces hL hN i hi, ?_⟩
  intro hfit
  rcases solution_i_spec homes max pieces hL hN i hi with
    ⟨h1, _⟩ | ⟨_, e, h1, h2, heq, hle, hstop⟩
  · omega
  · refine ⟨e, h1, h2, heq, hle, ?_, ?_⟩
    · intro e' hie' he' hrun'
      have := (solution_i_maximal homes max pieces hL hN i e' hie' he' hrun').2
      rw [heq] at this
      simp only at this
      omega
    · rcases hstop with h | ⟨h3, h4⟩
      · exact Or.inl h
      · right
        refine ⟨h3, ?_⟩
        rw [heq]
        have := runSum_succ pieces i e h1 (by have := hL.1; omega)
        simp only
        omega

theorem solution_i_maximal_run_witness :
    Legal 5 10 [3, 4, 2, 5, 9] ∧ NoOverflow 10 [3, 4, 2, 5, 9] ∧ 3 < 5 ∧
    solution_i 5 10 [3, 4, 2, 5, 9] 3 = ⟨5, 3, 3⟩ ∧
    ((solution_i 5 10 [3, 4, 2, 5, 9] 3 = noSolution ↔ pieceAt [3, 4, 2, 5, 9] 3 > 10) ∧
    (pieceAt [3, 4, 2, 5, 9] 3 ≤ 10 →
      ∃ e : Nat, 3 ≤ e ∧ e < 5 ∧
        solution_i 5 10 [3, 4, 2, 5, 9] 3 = ⟨runSum [3, 4, 2, 5, 9] 3 e, (3 : Nat), e⟩ ∧
        runSum [3, 4, 2, 5, 9] 3 e ≤ 10 ∧
        (∀ e' : Nat, 3 ≤ e' → e' < 5 → runSum [3, 4, 2, 5, 9] 3 e' ≤ 10 → e' ≤ e) ∧
        (e + 1 = 5 ∨
          (e + 1 < 5 ∧
            (solution_i 5 10 [3, 4, 2, 5, 9] 3).sum + pieceAt [3, 4, 2, 5, 9] (e + 1) > 10)))) :=
  ⟨by decide, ⟨9, by decide, by decide⟩, by decide, by decide,
    solution_i_maximal_run 5 10 [3, 4, 2, 5, 9] (by decide) ⟨9, by decide, by decide⟩ 3
      (by decide)⟩

/-- C8: for slots that are each the sentinel or a triple with non-negative sum and
start, the global reduction returns the sentinel when all slots are sentinels, and
otherwise a slot with the largest sum and, among the slots with that sum, the
smallest start. -/
theorem global_reduction_selects (l : List Solution)
    (hwf : ∀ t, t ∈ l → t = noSolution ∨ (0 ≤ t.sum ∧ 0 ≤ t.start)) :
    ((∀ t, t ∈ l → t = noSolution) → best_solution l = noSolution) ∧
    ((∃ t, t ∈ l ∧ t ≠ noSolution) →
      best_solution l ∈ l ∧
      (∀ t, t ∈ l → t.sum ≤ (best_solution l).sum) ∧
      (∀ t, t ∈ l → t.sum = (best_solution l).sum → (best_solution l).start ≤ t.start)) := by
  obtain ⟨hmem, hgood⟩ := best_solution_spec l
  constructor
  · intro hall
    rcases hmem with h | h
    · exact h
    · exact hall _ h
  · rintro ⟨t, ht, hne⟩
    have hpos : 0 ≤ t.sum := by
      rcases hwf t ht with h | ⟨h, _⟩
      · exact absurd h hne
      · exact h
    have hbt := hgood t ht
    unfold AtLeastAsGood at hbt
    refine ⟨?_, ?_, ?_⟩
    · rcases hmem with h | h
      · rw [h, noSolution_sum] at hbt; omega
      · exact h
    · intro u hu
      have := hgood u hu
      unfold AtLeastAsGood at this
      omega
    · intro u hu hsum
      have := hgood u hu
      unfold AtLeastAsGood at this
      omega

theorem global_reduction_selects_witness :
    (∀ t, t ∈ [noSolution, ⟨9, 4, 4⟩, ⟨9, 0, 2⟩, ⟨7, 2, 3⟩] →
      t = noSolution ∨ (0 ≤ t.sum ∧ 0 ≤ t.start)) ∧
    best_solution [noSolution, ⟨9, 4, 4⟩, ⟨9, 0, 2⟩, ⟨7, 2, 3⟩] = ⟨9, 0, 2⟩ ∧
    (((∀ t, t ∈ [noSolution, ⟨9, 4, 4⟩, ⟨9, 0, 2⟩, ⟨7, 2, 3⟩] → t = noSolution) →
      best_solution [noSolution, ⟨9, 4, 4⟩, ⟨9, 0, 2⟩, ⟨7, 2, 3⟩] = noSolution) ∧
    ((∃ t, t ∈ [noSolution, ⟨9, 4, 4⟩, ⟨9, 0, 2⟩, ⟨7, 2, 3⟩] ∧ t ≠ noSolution) →
      best_solution [noSolution, ⟨9, 4, 4⟩, ⟨9, 0, 2⟩, ⟨7, 2, 3⟩]
        ∈ [noSolution, ⟨9, 4, 4⟩, ⟨9, 0, 2⟩, ⟨7, 2, 3⟩] ∧
      (∀ t, t ∈ [noSolution, ⟨9, 4, 4⟩, ⟨9, 0, 2⟩, ⟨7, 2, 3⟩] →
        t.sum ≤ (best_solution [noSolution, ⟨9, 4, 4⟩, ⟨9, 0, 2⟩, ⟨7, 2, 3⟩]).sum) ∧
      (∀ t, t ∈ [noSolution, ⟨9, 4, 4⟩, ⟨9, 0, 2⟩, ⟨7, 2, 3⟩] →
        t.sum = (best_solution [noSolution, ⟨9, 4, 4⟩, ⟨9, 0, 2⟩, ⟨7, 2, 3⟩]).sum →
        (best_solution [noSolution, ⟨9, 4, 4⟩, ⟨9, 0, 2⟩, ⟨7, 2, 3⟩]).start ≤ t.start))) :=
  ⟨by decide, by decide,
    global_reduction_selects [noSolution, ⟨9, 4, 4⟩, ⟨9, 0, 2⟩, ⟨7, 2, 3⟩] (by decide)⟩

/-! ## Bounds-checked evaluation agrees with the program -/

theorem readPiece_ok (pieces : List Int) (k : Nat) (h : k < pieces.length) :
    readPiece pieces k = Except.ok (pieceAt pieces k) := by
  rw [pieceAt_eq_getElem pieces k h]
  simp only [readPiece, List.getElem?_eq_getElem h]

theorem expandLoopChecked_ok (max : Int) (pieces : List Int) (homes : Nat)
    (hlen : pieces.length = homes) :
    ∀ (fuel : Nat) (c : Int) (k : Nat), k < homes → homes - 1 - k ≤ fuel →
      expandLoopChecked max pieces homes fuel c k
        = Except.ok (expandLoop max pieces homes fuel c k) := by
  intro fuel
  induction fuel with
  | zero =>
    intro c k hk h
    have hcond : ¬ (c ≤ max ∧ (k : Int) < (homes : Int) - 1) := by omega
    simp only [expandLoopChecked, expandLoop, hcond, if_false]
  | succ fuel ih =>
    intro c k hk h
    by_cases hcond : c ≤ max ∧ (k : Int) < (homes : Int) - 1
    · have hk1 : k + 1 < pieces.length := by omega
      simp only [expandLoopChecked, expandLoop, hcond, and_self, if_true,
        readPiece_ok pieces (k + 1) hk1]
      exact ih _ _ (by omega) (by omega)
    · simp only [expandLoopChecked, expandLoop, hcond, if_false]

theorem solution_i_checked_ok (homes : Nat) (max : Int) (pieces : List Int)
    (hlen : pieces.length = homes) (i : Nat) (hi : i < homes) (fuel : Nat)
    (hfuel : homes ≤ fuel) :
    solution_i_checked fuel homes max pieces i = Except.ok (solution_i homes max pieces i) := by
  have hloop := expandLoopChecked_ok max pieces homes hlen fuel (pieceAt pieces i) i hi (by omega)
  have hbud := expandLoop_budget max pieces homes fuel homes (pieceAt pieces i) i (by omega)
    (by omega)
  have hin := expandLoop_index_lt max pieces homes homes (pieceAt pieces i) i hi
  unfold solution_i_checked solution_i
  rw [readPiece_ok pieces i (by omega)]
  simp only
  by_cases hfirst : pieceAt pieces i > max
  · simp only [hfirst, if_true]
  · simp only [hfirst, if_false, hloop, hbud]
    by_cases hover : (expandLoop max pieces homes homes (pieceAt pieces i) i).1 > max
    · have hin' : (expandLoop max pieces homes homes (pieceAt pieces i) i).2 < pieces.length := by
        omega
      simp only [hover, if_true, readPiece_ok pieces _ hin']
    · simp only [hover, if_false]

theorem serialLoopChecked_ok (homes : Nat) (max : Int) (pieces : List Int)
    (hlen : pieces.length = homes) (fuel : Nat) (hfuel : homes ≤ fuel) :
    ∀ (l : List Nat) (fin : Solution), (∀ i, i ∈ l → i < homes) →
      serialLoopChecked fuel homes max pieces l fin
        = Except.ok (serialLoop homes max pieces l fin) := by
  intro l
  induction l with
  | nil => intro fin _; rfl
  | cons i rest ih =>
    intro fin hl
    have hi : i < homes := hl i (List.mem_cons_self _ _)
    simp only [serialLoopChecked, serialLoop,
      solution_i_checked_ok homes max pieces hlen i hi fuel hfuel]
    by_cases hhit : (solution_i homes max pieces i).sum = max
    · simp only [hhit, if_true]
    · simp only [hhit, if_false]
      exact ih _ (fun j hj => hl j (List.mem_cons_of_mem _ hj))

/-- Every start index a thread holds for expansion passed the check `i >= homes`. -/
theorem step_eval_lt (homes : Nat) (max : Int) (pieces : List Int) (team t0 : Nat) (s : State)
    (h : ∀ t i, (s.workers t).pc = Pc.eval i → i < homes) :
    ∀ t i, ((step homes max pieces team t0 s).workers t).pc = Pc.eval i → i < homes := by
  intro t i
  unfold step
  by_cases ht : t0 < team
  swap
  · rw [if_neg ht]; exact h t i
  rw [if_pos ht]
  by_cases htt : t = t0
  · subst htt
    split
    · split <;> simp only [Function.update_same] <;> intro hpc <;> cases hpc
    · split
      · simp only [Function.update_same]; intro hpc; cases hpc
      · simp only [Function.update_same]; intro hpc; cases hpc; omega
    · split <;> simp only [Function.update_same] <;> intro hpc <;> cases hpc
    · simp only [Function.update_same]; intro hpc; cases hpc
    · exact h t i
  · split
    · split <;> simp only [Function.update_noteq htt] <;> exact h t i
    · split <;> simp only [Function.update_noteq htt] <;> exact h t i
    · split <;> simp only [Function.update_noteq htt] <;> exact h t i
    · simp only [Function.update_noteq htt]; exact h t i
    · exact h t i

theorem run_eval_lt (homes : Nat) (max : Int) (pieces : List Int) (team : Nat)
    (sched : List Nat) :
    ∀ s : State, (∀ t i, (s.workers t).pc = Pc.eval i → i < homes) →
      ∀ t i, ((run homes max pieces team sched s).workers t).pc = Pc.eval i → i < homes := by
  induction sched with
  | nil => intro s h; exact h
  | cons t0 rest ih =>
    intro s h
    exact ih _ (step_eval_lt homes max pieces team t0 s h)

/-- C9: when `len(pieces) = homes`, the bounds-checked evaluation of every start index
below `homes`, and of the whole serial loop, never reads outside the vector and never
exhausts an iteration budget of at least `homes`: it returns exactly what the program
computes. In the parallel region a thread only ever expands an index below `homes`. -/
theorem reads_in_bounds_and_terminates (homes : Nat) (max : Int) (pieces : List Int)
    (hlen : pieces.length = homes) :
    (∀ i fuel, i < homes → homes ≤ fuel →
      solution_i_checked fuel homes max pieces i
        = Except.ok (solution_i homes max pieces i)) ∧
    (∀ fuel, homes ≤ fuel →
      serialChecked fuel homes max pieces = Except.ok (serial homes max pieces)) ∧
    (∀ team sched t i,
      ((run homes max pieces team sched initState).workers t).pc = Pc.eval i → i < homes) := by
  refine ⟨?_, ?_, ?_⟩
  · intro i fuel hi hfuel
    exact solution_i_checked_ok homes max pieces hlen i hi fuel hfuel
  · intro fuel hfuel
    unfold serialChecked serial
    apply serialLoopChecked_ok homes max pieces hlen fuel hfuel
    intro i hi
    have := List.mem_range.mp hi
    omega
  · intro team sched
    apply run_eval_lt homes max pieces team sched initState
    intro t i hpc
    simp [initState] at hpc

theorem reads_in_bounds_and_terminates_witness :
    [3, 4, 2, 5, 9].length = 5 ∧
    solution_i_checked 5 5 10 [3, 4, 2, 5, 9] 1 = Except.ok ⟨6, 1, 2⟩ ∧
    ((∀ i fuel, i < 5 → 5 ≤ fuel →
      solution_i_checked fuel 5 10 [3, 4, 2, 5, 9] i
        = Except.ok (solution_i 5 10 [3, 4, 2, 5, 9] i)) ∧
    (∀ fuel, 5 ≤ fuel →
      serialChecked fuel 5 10 [3, 4, 2, 5, 9] = Except.ok (serial 5 10 [3, 4, 2, 5, 9])) ∧
    (∀ team sched t i,
      ((run 5 10 [3, 4, 2, 5, 9] team sched initState).workers t).pc = Pc.eval i → i < 5)) :=
  ⟨rfl, rfl, reads_in_bounds_and_terminates 5 10 [3, 4, 2, 5, 9] rfl⟩

/-! ## The history of claims -/

/-- C10 (as stated) fails: with `homes = 3`, `max = 5`, `pieces = [5, 1, 1]` and one
thread, the first start already totals `max`, the flag is raised, and the thread leaves
at its next check: the run is complete with the single claim of index `0`; indices `1`
and `2` are received by no thread. -/
theorem every_index_claimed_counterexample :
    Legal 3 5 [5, 1, 1] ∧
    finished 1 (run 3 5 [5, 1, 1] 1 [0, 0, 0, 0, 0] initState) ∧
    (run 3 5 [5, 1, 1] 1 [0, 0, 0, 0, 0] initState).claimed = [(0, 0)] ∧
    ¬ ((∀ i, i < 3 → ∃ t, (t, i) ∈ (run 3 5 [5, 1, 1] 1 [0, 0, 0, 0, 0] initState).claimed) ∧
        (run 3 5 [5, 1, 1] 1 [0, 0, 0, 0, 0] initState).claimed.length = 3) := by
  refine ⟨by decide, by decide, by decide, ?_⟩
  rintro ⟨_, h⟩
  revert h
  decide

/-- C10 (amended): in every completed run on a legal input the successful claims are
exactly the indices `0, ..., k-1` for the number `k ≤ homes` of claims, each received
by exactly one thread of the team; and when no start has a candidate sum equal to
`max` (the flag is never raised), `k = homes`: every start index is received by
exactly one thread. -/
theorem claims_exactly_once (homes : Nat) (max : Int) (pieces : List Int)
    (hL : Legal homes max pieces) (team : Nat) (hteam : 1 ≤ team) (sched : List Nat)
    (hfin : finished team (run homes max pieces team sched initState)) :
    (run homes max pieces team sched initState).claimed.map Prod.snd
      = List.range (run homes max pieces team sched initState).claimed.length ∧
    (run homes max pieces team sched initState).claimed.length ≤ homes ∧
    (∀ i, i < (run homes max pieces team sched initState).claimed.length →
      ∃ t, t < team ∧ (t, i) ∈ (run homes max pieces team sched initState).claimed ∧
        ∀ t', (t', i) ∈ (run homes max pieces team sched initState).claimed → t' = t) ∧
    ((∀ j, j < homes → (solution_i homes max pieces j).sum ≠ max) →
      (run homes max pieces team sched initState).claimed.length = homes) := by
  have hinv := run_inv homes max pieces team sched initState
    (initState_inv homes max pieces team hL)
  generalize run homes max pieces team sched initState = s at hinv hfin
  have hlenc : s.claimed.length = min s.idx homes := by
    have := congrArg List.length hinv.claimedIdx
    simpa using this
  have hmap : s.claimed.map Prod.snd = List.range s.claimed.length := by
    rw [hlenc]; exact hinv.claimedIdx
  refine ⟨hmap, by omega, ?_, ?_⟩
  · intro i hi
    have hmem : i ∈ s.claimed.map Prod.snd := by
      rw [hmap]; exact List.mem_range.mpr hi
    obtain ⟨p, hp, hpi⟩ := List.mem_map.mp hmem
    have hnd : (s.claimed.map Prod.snd).Nodup := by
      rw [hmap]; exact List.nodup_range _
    refine ⟨p.1, hinv.claimedBy p hp, by rw [← hpi]; exact hp, ?_⟩
    intro t' ht'
    have := List.inj_on_of_nodup_map hnd ht' hp (by rw [hpi])
    rw [← this]
  · intro hnohit
    have hd := hfin 0 (by omega)
    rcases (hinv.workers 0).doneWhy hd with h | h
    · obtain ⟨j, _, hj, hhit⟩ := hinv.stopHit h
      exact absurd hhit (hnohit j hj)
    · omega

theorem claims_exactly_once_witness :
    Legal 3 5 [6, 1, 1] ∧
    finished 2 (run 3 5 [6, 1, 1] 2
      [0, 1, 0, 1, 0, 0, 1, 1, 0, 0, 0, 0, 0, 0, 1, 1] initState) ∧
    (run 3 5 [6, 1, 1] 2 [0, 1, 0, 1, 0, 0, 1, 1, 0, 0, 0, 0, 0, 0, 1, 1] initState).claimed
      = [(0, 0), (1, 1), (0, 2)] ∧
    ((run 3 5 [6, 1, 1] 2
        [0, 1, 0, 1, 0, 0, 1, 1, 0, 0, 0, 0, 0, 0, 1, 1] initState).claimed.map Prod.snd
      = List.range (run 3 5 [6, 1, 1] 2
          [0, 1, 0, 1, 0, 0, 1, 1, 0, 0, 0, 0, 0, 0, 1, 1] initState).claimed.length ∧
    (run 3 5 [6, 1, 1] 2
        [0, 1, 0, 1, 0, 0, 1, 1, 0, 0, 0, 0, 0, 0, 1, 1] initState).claimed.length ≤ 3 ∧
    (∀ i, i < (run 3 5 [6, 1, 1] 2
        [0, 1, 0, 1, 0, 0, 1, 1, 0, 0, 0, 0, 0, 0, 1, 1] initState).claimed.length →
      ∃ t, t < 2 ∧ (t, i) ∈ (run 3 5 [6, 1, 1] 2
          [0, 1, 0, 1, 0, 0, 1, 1, 0, 0, 0, 0, 0, 0, 1, 1] initState).claimed ∧
        ∀ t', (t', i) ∈ (run 3 5 [6, 1, 1] 2
          [0, 1, 0, 1, 0, 0, 1, 1, 0, 0, 0, 0, 0, 0, 1, 1] initState).claimed → t' = t) ∧
    ((∀ j, j < 3 → (solution_i 3 5 [6, 1, 1] j).sum ≠ 5) →
      (run 3 5 [6, 1, 1] 2
        [0, 1, 0, 1, 0, 0, 1, 1, 0, 0, 0, 0, 0, 0, 1, 1] initState).claimed.length = 3)) :=
  ⟨by decide, by decide, by decide,
    claims_exactly_once 3 5 [6, 1, 1] (by decide) 2 (by decide) _ (by decide)⟩

/-- The history of claims lists the indices below `min idx homes` in order; this needs
no assumption on the input. -/
theorem step_claimed (homes : Nat) (max : Int) (pieces : List Int) (team t : Nat) (s : State)
    (h : s.claimed.map Prod.snd = List.range (min s.idx homes)) :
    (step homes max pieces team t s).claimed.map Prod.snd
      = List.range (min (step homes max pieces team t s).idx homes) := by
  unfold step
  by_cases ht : t < team
  swap
  · rw [if_neg ht]; exact h
  rw [if_pos ht]
  split
  · split <;> exact h
  · by_cases hx : s.idx ≥ homes
    · rw [if_pos hx]
      simp only
      rw [h]
      congr 1
      omega
    · rw [if_neg hx]
      simp only
      rw [List.map_append, h]
      have h1 : min s.idx homes = s.idx := by omega
      have h2 : min (s.idx + 1) homes = s.idx + 1 := by omega
      rw [h1, h2, List.range_succ]
      rfl
  · split <;> exact h
  · exact h
  · exact h

theorem run_claimed (homes : Nat) (max : Int) (pieces : List Int) (team : Nat)
    (sched : List Nat) :
    ∀ s : State, s.claimed.map Prod.snd = List.range (min s.idx homes) →
      (run homes max pieces team sched s).claimed.map Prod.snd
        = List.range (min (run homes max pieces team sched s).idx homes) := by
  induction sched with
  | nil => intro s h; exact h
  | cons t rest ih =>
    intro s h
    exact ih _ (step_claimed homes max pieces team t s h)

/-- C11: in every state reached by the parallel region, on any input and under any
schedule, the successfully claimed start indices, in the order of their claims, are
exactly `0, 1, ..., k-1` for the number `k` of successful claims (`k` being the cursor
capped at `homes`); they are strictly increasing, and no index occurs twice, whether
for two threads or for the same thread. -/
theorem claims_are_initial_segment (homes : Nat) (max : Int) (pieces : List Int)
    (team : Nat) (sched : List Nat) :
    (run homes max pieces team sched initState).claimed.map Prod.snd
      = List.range (run homes max pieces team sched initState).claimed.length ∧
    (run homes max pieces team sched initState).claimed.length
      = min (run homes max pieces team sched initState).idx homes ∧
    List.Pairwise (fun a b => a < b)
      ((run homes max pieces team sched initState).claimed.map Prod.snd) ∧
    ((run homes max pieces team sched initState).claimed.map Prod.snd).Nodup ∧
    (∀ t t' i, (t, i) ∈ (run homes max pieces team sched initState).claimed →
      (t', i) ∈ (run homes max pieces team sched initState).claimed → t = t') := by
  have hc := run_claimed homes max pieces team sched initState (by simp [initState])
  generalize run homes max pieces team sched initState = s at hc
  have hlenc : s.claimed.length = min s.idx homes := by
    have := congrArg List.length hc
    simpa using this
  have hmap : s.claimed.map Prod.snd = List.range s.claimed.length := by
    rw [hlenc]; exact hc
  have hnd : (s.claimed.map Prod.snd).Nodup := by
    rw [hmap]; exact List.nodup_range _
  refine ⟨hmap, hlenc, ?_, hnd, ?_⟩
  · rw [hmap]; exact List.pairwise_lt_range _
  · intro t t' i h1 h2
    have := List.inj_on_of_nodup_map hnd h1 h2 rfl
    exact congrArg Prod.fst this

/-! ## Early termination against exhaustive evaluation -/

/-- C12: on every legal input the serial loop, which breaks at the first start whose
candidate sum equals `max`, returns the same triple as the exhaustive loop over all
starts that only applies the strict-greater update and never breaks. Both loops are
taken with their 32-bit arithmetic, so this holds on inputs whose totals overflow as
well. -/
theorem early_break_is_optimisation (homes : Nat) (max : Int) (pieces : List Int)
    (hL : Legal homes max pieces) :
    serial homes max pieces = exhaustive homes max pieces :=
  firstBest_unique homes max pieces homes _ _ (serial_firstBest homes max pieces hL)
    (exhaustive_firstBest homes max pieces hL.1)

theorem early_break_is_optimisation_witness :
    Legal 5 7 [3, 4, 9, 5, 2] ∧
    serial 5 7 [3, 4, 9, 5, 2] = ⟨7, 0, 1⟩ ∧
    exhaustive 2 2147483647 [2147483647, 1] = ⟨1, 1, 1⟩ ∧
    serial 5 7 [3, 4, 9, 5, 2] = exhaustive 5 7 [3, 4, 9, 5, 2] ∧
    serial 2 2147483647 [2147483647, 1] = exhaustive 2 2147483647 [2147483647, 1] :=
  ⟨by decide, by decide, by decide,
    early_break_is_optimisation 5 7 [3, 4, 9, 5, 2] (by decide),
    early_break_is_optimisation 2 2147483647 [2147483647, 1] (by decide)⟩

/-! ## One thread's best against its own sequence of start indices -/

/-- Appending a larger index and applying the strict-greater update keeps the first
best expansion over the sequence. -/
theorem localBest_snoc (homes : Nat) (max : Int) (pieces : List Int) (d : List Nat) (i : Nat)
    (hd : ∀ j, j ∈ d → j < i) (b : Solution) (hb : LocalBest homes max pieces d b) :
    LocalBest homes max pieces (d ++ [i])
      (if (solution_i homes max pieces i).sum > b.sum then solution_i homes max pieces i
       else b) := by
  have hmem : ∀ j, j ∈ d ++ [i] → j ∈ d ∨ j = i := by
    intro j hj
    rcases List.mem_append.mp hj with h | h
    · exact Or.inl h
    · exact Or.inr (List.mem_singleton.mp h)
  by_cases hgt : (solution_i homes max pieces i).sum > b.sum
  · rw [if_pos hgt]
    right
    refine ⟨i, by simp, rfl, ?_, ?_, ?_⟩
    · rcases hb with ⟨hf, _⟩ | ⟨w, _, _, hf, _, _⟩
      · rw [hf, noSolution_sum] at hgt; omega
      · omega
    · intro j hj
      rcases hmem j hj with hjd | hji
      · rcases hb with ⟨hf, hall⟩ | ⟨w, _, _, _, hall, _⟩
        · have := hall j hjd
          rw [hf, noSolution_sum] at hgt
          omega
        · have := hall j hjd; omega
      · rw [hji]
    · intro j hj hji
      rcases hmem j hj with hjd | hje
      · rcases hb with ⟨hf, hall⟩ | ⟨w, _, _, _, hall, _⟩
        · have := hall j hjd
          rw [hf, noSolution_sum] at hgt
          omega
        · have := hall j hjd; omega
      · omega
  · rw [if_neg hgt]
    rcases hb with ⟨hf, hall⟩ | ⟨w, hw, hfw, hpos, hall, hmin⟩
    · left
      refine ⟨hf, ?_⟩
      intro j hj
      rcases hmem j hj with hjd | hji
      · exact hall j hjd
      · rw [hji]
        rw [hf, noSolution_sum] at hgt
        omega
    · right
      refine ⟨w, List.mem_append_left _ hw, hfw, hpos, ?_, ?_⟩
      · intro j hj
        rcases hmem j hj with hjd | hji
        · exact hall j hjd
        · rw [hji]; omega
      · intro j hj hjw
        rcases hmem j hj with hjd | hji
        · exact hmin j hjd hjw
        · have := hd w hw
          omega

/-- An exact hit after a sequence without one is the first best over the extended
sequence. -/
theorem localBest_hit (homes : Nat) (max : Int) (pieces : List Int)
    (hL : Legal homes max pieces) (d : List Nat) (i : Nat) (b : Solution)
    (hb : LocalBest homes max pieces d b)
    (hbm : b.sum ≠ max) (hhit : (solution_i homes max pieces i).sum = max) :
    LocalBest homes max pieces (d ++ [i]) (solution_i homes max pieces i) := by
  have hmem : ∀ j, j ∈ d ++ [i] → j ∈ d ∨ j = i := by
    intro j hj
    rcases List.mem_append.mp hj with h | h
    · exact Or.inl h
    · exact Or.inr (List.mem_singleton.mp h)
  have hlt : ∀ j, j ∈ d → (solution_i homes max pieces j).sum < max := by
    intro j hj
    rcases hb with ⟨_, hall⟩ | ⟨w, hw, hbw, _, hall, _⟩
    · have := hall j hj
      have := hL.2.2
      omega
    · have h1 := hall j hj
      have h2 := solution_i_sum_le_max homes max pieces hL w
      rw [← hbw] at h2
      omega
  right
  refine ⟨i, by simp, rfl, ?_, ?_, ?_⟩
  · rw [hhit]; exact hL.2.2
  · intro j hj
    rcases hmem j hj with hjd | hji
    · have := hlt j hjd; omega
    · rw [hji]
  · intro j hj hji
    rcases hmem j hj with hjd | hje
    · have := hlt j hjd; omega
    · omega

theorem localInv_afterMove {homes : Nat} {max : Int} {pieces : List Int} (s : State)
    (t idx' : Nat) (stop' : Bool) (w' : Worker) (claimed' : List (Nat × Nat))
    (hist' : List Nat)
    (hhist : (claimed'.filter (fun p => decide (p.1 = t))).map Prod.snd = hist')
    (hbound : ∀ j, j ∈ hist' → j < idx' ∧ j < homes)
    (hrest : (w'.pc = Pc.check ∨ w'.pc = Pc.claim ∨ w'.pc = Pc.done) →
      LocalBest homes max pieces hist' w'.solution_final)
    (heval : ∀ i, w'.pc = Pc.eval i →
      ∃ d, hist' = d ++ [i] ∧ (∀ j, j ∈ d → j < i) ∧
        LocalBest homes max pieces d w'.solution_final)
    (hupd : ∀ i sol, w'.pc = Pc.update i sol →
      ∃ d, hist' = d ++ [i] ∧ (∀ j, j ∈ d → j < i) ∧
        (sol.sum = max → LocalBest homes max pieces hist' w'.solution_final) ∧
        (sol.sum ≠ max → LocalBest homes max pieces d w'.solution_final)) :
    LocalInv homes max pieces ⟨idx', stop', Function.update s.workers t w', claimed'⟩ t := by
  refine ⟨?_, ?_, ?_, ?_⟩
  · simp only [threadClaims, hhist]; exact hbound
  · simp only [threadClaims, hhist, Function.update_same]; exact hrest
  · simp only [threadClaims, hhist, Function.update_same]; exact heval
  · simp only [threadClaims, hhist, Function.update_same]; exact hupd

/-- Every action of every thread preserves the relation between each thread's
`solution_final` and the indices it has claimed. -/
theorem step_local (homes : Nat) (max : Int) (pieces : List Int) (team : Nat)
    (hL : Legal homes max pieces) (t0 : Nat) (s : State) (h : Inv homes max pieces team s)
    (hl : ∀ t, LocalInv homes max pieces s t) :
    ∀ t, LocalInv homes max pieces (step homes max pieces team t0 s) t := by
  intro t
  by_cases htt : t = t0
  swap
  · have hw := step_other_worker homes max pieces team t0 s t htt
    have hc := step_other_claims homes max pieces team t0 s t htt
    have hi := step_idx_ge homes max pieces team t0 s
    have hlt := hl t
    refine ⟨?_, ?_, ?_, ?_⟩
    · intro j hj
      rw [hc] at hj
      have := hlt.bound j hj
      omega
    · rw [hw, hc]; exact hlt.rest
    · rw [hw, hc]; exact hlt.evalH
    · rw [hw, hc]; exact hlt.updH
  subst htt
  have hlt := hl t
  have hw := h.workers t
  unfold step
  by_cases ht : t < team
  swap
  · rw [if_neg ht]; exact hlt
  rw [if_pos ht]
  split
  · rename_i hpc
    have hb := hlt.rest (Or.inl hpc)
    by_cases hs : s.stop = true
    · rw [if_pos hs]
      refine localInv_afterMove s t s.idx s.stop _ s.claimed (threadClaims s t) rfl hlt.bound
        (fun _ => hb) ?_ ?_
      · intro i hi; cases hi
      · intro i sol hi; cases hi
    · rw [if_neg hs]
      refine localInv_afterMove s t s.idx s.stop _ s.claimed (threadClaims s t) rfl hlt.bound
        (fun _ => hb) ?_ ?_
      · intro i hi; cases hi
      · intro i sol hi; cases hi
  · rename_i hpc
    have hb := hlt.rest (Or.inr (Or.inl hpc))
    by_cases hx : s.idx ≥ homes
    · rw [if_pos hx]
      refine localInv_afterMove s t (s.idx + 1) s.stop _ s.claimed (threadClaims s t) rfl ?_
        (fun _ => hb) ?_ ?_
      · intro j hj
        have := hlt.bound j hj
        omega
      · intro i hi; cases hi
      · intro i sol hi; cases hi
    · rw [if_neg hx]
      refine localInv_afterMove s t (s.idx + 1) s.stop _ (s.claimed ++ [(t, s.idx)])
        (threadClaims s t ++ [s.idx]) ?_ ?_ ?_ ?_ ?_
      · simp [threadClaims, List.filter_append]
      · intro j hj
        rcases List.mem_append.mp hj with hj | hj
        · have := hlt.bound j hj
          omega
        · have := List.mem_singleton.mp hj
          omega
      · rintro (hp | hp | hp) <;> cases hp
      · intro i hi
        cases hi
        exact ⟨threadClaims s t, rfl, fun j hj => (hlt.bound j hj).1, hb⟩
      · intro i sol hi; cases hi
  · rename_i i hpc
    obtain ⟨d, hd1, hd2, hd3⟩ := hlt.evalH i hpc
    obtain ⟨hi1, hi2⟩ := hw.evalPc i hpc
    have hnomax : (s.workers t).solution_final.sum ≠ max := fun hm => (hw.hitStop hm).2.2 i hpc
    by_cases hhit : (solution_i homes max pieces i).sum = max
    · rw [if_pos hhit]
      refine localInv_afterMove s t s.idx true _ s.claimed (threadClaims s t) rfl hlt.bound
        ?_ ?_ ?_
      · rintro (hp | hp | hp) <;> cases hp
      · intro j hj; cases hj
      · intro j sol hj
        cases hj
        refine ⟨d, hd1, hd2, ?_, fun hne => absurd hhit hne⟩
        intro _
        rw [hd1]
        exact localBest_hit homes max pieces hL d i _ hd3 hnomax hhit
    · rw [if_neg hhit]
      refine localInv_afterMove s t s.idx s.stop _ s.claimed (threadClaims s t) rfl hlt.bound
        ?_ ?_ ?_
      · rintro (hp | hp | hp) <;> cases hp
      · intro j hj; cases hj
      · intro j sol hj
        cases hj
        exact ⟨d, hd1, hd2, fun hm => absurd hm hhit, fun _ => hd3⟩
  · rename_i i sol hpc
    obtain ⟨d, hd1, hd2, hd3, hd4⟩ := hlt.updH i sol hpc
    obtain ⟨hi1, hi2, hsol, hkeep⟩ := hw.updatePc i sol hpc
    refine localInv_afterMove s t s.idx s.stop _ s.claimed (threadClaims s t) rfl hlt.bound
      ?_ ?_ ?_
    · intro _
      by_cases hhit : sol.sum = max
      · have hsf := hkeep hhit
        have hgt : ¬ sol.sum > (s.workers t).solution_final.sum := by
          rw [hsf]; exact lt_irrefl _
        simp only [if_neg hgt]
        exact hd3 hhit
      · have := localBest_snoc homes max pieces d i hd2 _ (hd4 hhit)
        rw [← hsol, ← hd1] at this
        exact this
    · intro j hj; cases hj
    · intro j sol' hj; cases hj
  · exact hlt

theorem initState_local (homes : Nat) (max : Int) (pieces : List Int) (t : Nat) :
    LocalInv homes max pieces initState t := by
  refine ⟨?_, ?_, ?_, ?_⟩
  · intro j hj; simp [threadClaims, initState] at hj
  · intro _
    left
    exact ⟨rfl, by intro j hj; simp [threadClaims, initState] at hj⟩
  · intro i hi; simp [initState] at hi
  · intro i sol hi; simp [initState] at hi

theorem run_local (homes : Nat) (max : Int) (pieces : List Int) (team : Nat)
    (hL : Legal homes max pieces) (sched : List Nat) :
    ∀ s, Inv homes max pieces team s → (∀ t, LocalInv homes max pieces s t) →
      ∀ t, LocalInv homes max pieces (run homes max pieces team sched s) t := by
  induction sched with
  | nil => intro s _ h; exact h
  | cons t0 rest ih =>
    intro s h hl
    exact ih _ (step_inv homes max pieces team t0 s h)
      (step_local homes max pieces team hL t0 s h hl)

/-- C13 (as stated) fails: with `homes = 2`, `max = 10`, `pieces = [5, 2147483647]` and
two threads of which thread `0` evaluates only start `0`, the candidate of start `0`
is `(-2147483644, 0, 1)` (the total wraps), it never beats the sum `-1` of the
sentinel, and the thread leaves the loop with `(-1, -1, -1)` in its slot although
`pieces[0] <= max`: its final best is neither the candidate of its only index nor the
sentinel of a sequence whose pieces all exceed `max`. -/
theorem thread_best_is_first_max_counterexample :
    Legal 2 10 [5, 2147483647] ∧
    ((run 2 10 [5, 2147483647] 2 [0, 0, 1, 1, 0, 0, 0, 0] initState).workers 0).pc = Pc.done ∧
    threadClaims (run 2 10 [5, 2147483647] 2 [0, 0, 1, 1, 0, 0, 0, 0] initState) 0 = [0] ∧
    pieceAt [5, 2147483647] 0 ≤ 10 ∧
    solution_i 2 10 [5, 2147483647] 0 = ⟨-2147483644, 0, 1⟩ ∧
    ((run 2 10 [5, 2147483647] 2 [0, 0, 1, 1, 0, 0, 0, 0] initState).workers 0).solution_final
      = noSolution ∧
    ((run 2 10 [5, 2147483647] 2 [0, 0, 1, 1, 0, 0, 0, 0] initState).workers 0).solution_final
      ≠ solution_i 2 10 [5, 2147483647] 0 := by
  refine ⟨by decide, by decide, by decide, by decide, by decide, by decide, by decide⟩

/-- C13 (amended): on a legal input with `max` plus the largest piece below `2^31`,
whenever a thread is between two evaluations or has left the loop, the start indices
it has evaluated form a strictly increasing sequence and its `solution_final` is the
sentinel if every index of that sequence has `pieces[i] > max`, and otherwise the
candidate of the smallest index of the sequence among those whose candidate sum is
the largest over the sequence. -/
theorem thread_best_is_first_max (homes : Nat) (max : Int) (pieces : List Int)
    (hL : Legal homes max pieces) (hN : NoOverflow max pieces) (team : Nat)
    (sched : List Nat) (t : Nat)
    (hq : ((run homes max pieces team sched initState).workers t).pc = Pc.check ∨
      ((run homes max pieces team sched initState).workers t).pc = Pc.claim ∨
      ((run homes max pieces team sched initState).workers t).pc = Pc.done) :
    List.Pairwise (fun a b => a < b)
      (threadClaims (run homes max pieces team sched initState) t) ∧
    ((∀ j, j ∈ threadClaims (run homes max pieces team sched initState) t →
        pieceAt pieces j > max) →
      ((run homes max pieces team sched initState).workers t).solution_final = noSolution) ∧
    ((∃ j, j ∈ threadClaims (run homes max pieces team sched initState) t ∧
        pieceAt pieces j ≤ max) →
      ∃ w, w ∈ threadClaims (run homes max pieces team sched initState) t ∧
        ((run homes max pieces team sched initState).workers t).solution_final
          = solution_i homes max pieces w ∧
        (∀ j, j ∈ threadClaims (run homes max pieces team sched initState) t →
          (solution_i homes max pieces j).sum ≤ (solution_i homes max pieces w).sum) ∧
        (∀ j, j ∈ threadClaims (run homes max pieces team sched initState) t →
          (solution_i homes max pieces j).sum = (solution_i homes max pieces w).sum →
          w ≤ j)) := by
  have hinv := run_inv homes max pieces team sched initState
    (initState_inv homes max pieces team hL)
  have hloc := run_local homes max pieces team hL sched initState
    (initState_inv homes max pieces team hL) (initState_local homes max pieces) t
  generalize run homes max pieces team sched initState = s at hinv hloc hq
  have hb := hloc.rest hq
  refine ⟨?_, ?_, ?_⟩
  · have hsub : List.Sublist (threadClaims s t) (s.claimed.map Prod.snd) :=
      (List.filter_sublist _).map Prod.snd
    refine List.Pairwise.sublist hsub ?_
    rw [hinv.claimedIdx]
    exact List.pairwise_lt_range _
  · intro hall
    rcases hb with ⟨hf, _⟩ | ⟨w, hw, hfw, hpos, _, _⟩
    · exact hf
    · have h1 := (solution_i_neg_iff homes max pieces hL hN w (hloc.bound w hw).2).mpr
        (hall w hw)
      rw [hfw] at hpos
      omega
  · rintro ⟨j, hj, hfit⟩
    rcases hb with ⟨_, hall⟩ | ⟨w, hw, hfw, _, hmaxw, hminw⟩
    · have h1 := (solution_i_neg_iff homes max pieces hL hN j (hloc.bound j hj).2).mp
        (hall j hj)
      omega
    · rw [hfw] at hmaxw hminw
      refine ⟨w, hw, hfw, hmaxw, ?_⟩
      intro k hk heq
      by_contra hlt
      have := hminw k hk (by omega)
      omega

theorem thread_best_is_first_max_witness :
    Legal 5 10 [3, 4, 2, 5, 9] ∧ NoOverflow 10 [3, 4, 2, 5, 9] ∧
    threadClaims (run 5 10 [3, 4, 2, 5, 9] 2
      [0, 0, 1, 1, 0, 0, 1, 1, 0, 0, 1, 1, 0, 0, 1, 1, 0, 0, 0, 0, 0, 0, 1, 1] initState) 1
      = [1, 3] ∧
    ((run 5 10 [3, 4, 2, 5, 9] 2
      [0, 0, 1, 1, 0, 0, 1, 1, 0, 0, 1, 1, 0, 0, 1, 1, 0, 0, 0, 0, 0, 0, 1, 1]
      initState).workers 1).solution_final = ⟨6, 1, 2⟩ ∧
    ((∃ j, j ∈ threadClaims (run 5 10 [3, 4, 2, 5, 9] 2
        [0, 0, 1, 1, 0, 0, 1, 1, 0, 0, 1, 1, 0, 0, 1, 1, 0, 0, 0, 0, 0, 0, 1, 1] initState) 1 ∧
        pieceAt [3, 4, 2, 5, 9] j ≤ 10) →
      ∃ w, w ∈ threadClaims (run 5 10 [3, 4, 2, 5, 9] 2
          [0, 0, 1, 1, 0, 0, 1, 1, 0, 0, 1, 1, 0, 0, 1, 1, 0, 0, 0, 0, 0, 0, 1, 1] initState) 1 ∧
        ((run 5 10 [3, 4, 2, 5, 9] 2
          [0, 0, 1, 1, 0, 0, 1, 1, 0, 0, 1, 1, 0, 0, 1, 1, 0, 0, 0, 0, 0, 0, 1, 1]
          initState).workers 1).solution_final = solution_i 5 10 [3, 4, 2, 5, 9] w ∧
        (∀ j, j ∈ threadClaims (run 5 10 [3, 4, 2, 5, 9] 2
            [0, 0, 1, 1, 0, 0, 1, 1, 0, 0, 1, 1, 0, 0, 1, 1, 0, 0, 0, 0, 0, 0, 1, 1]
            initState) 1 →
          (solution_i 5 10 [3, 4, 2, 5, 9] j).sum ≤ (solution_i 5 10 [3, 4, 2, 5, 9] w).sum) ∧
        (∀ j, j ∈ threadClaims (run 5 10 [3, 4, 2, 5, 9] 2
            [0, 0, 1, 1, 0, 0, 1, 1, 0, 0, 1, 1, 0, 0, 1, 1, 0, 0, 0, 0, 0, 0, 1, 1]
            initState) 1 →
          (solution_i 5 10 [3, 4, 2, 5, 9] j).sum = (solution_i 5 10 [3, 4, 2, 5, 9] w).sum →
          w ≤ j)) :=
  ⟨by decide, ⟨9, by decide, by decide⟩, by decide, by decide,
    (thread_best_is_first_max 5 10 [3, 4, 2, 5, 9] (by decide) ⟨9, by decide, by decide⟩ 2
      [0, 0, 1, 1, 0, 0, 1, 1, 0, 0, 1, 1, 0, 0, 1, 1, 0, 0, 0, 0, 0, 0, 1, 1] 1
      (by decide)).2.2⟩

/-! ## After an exact hit -/

/-- What holds of a thread from the moment it has found an exact hit at index `i`. -/
theorem step_after_hit (homes : Nat) (max : Int) (pieces : List Int) (team t i : Nat)
    (hist : List Nat) (t0 : Nat) (s : State)
    (hs : s.stop = true)
    (hsf : (s.workers t).solution_final = solution_i homes max pieces i)
    (hpc : (s.workers t).pc = Pc.update i (solution_i homes max pieces i) ∨
      (s.workers t).pc = Pc.check ∨ (s.workers t).pc = Pc.done)
    (hh : threadClaims s t = hist) :
    (step homes max pieces team t0 s).stop = true ∧
    ((step homes max pieces team t0 s).workers t).solution_final
      = solution_i homes max pieces i ∧
    (((step homes max pieces team t0 s).workers t).pc
        = Pc.update i (solution_i homes max pieces i) ∨
      ((step homes max pieces team t0 s).workers t).pc = Pc.check ∨
      ((step homes max pieces team t0 s).workers t).pc = Pc.done) ∧
    threadClaims (step homes max pieces team t0 s) t = hist := by
  refine ⟨step_stop_stays homes max pieces team t0 s hs, ?_⟩
  by_cases htt : t = t0
  swap
  · rw [step_other_worker homes max pieces team t0 s t htt,
      step_other_claims homes max pieces team t0 s t htt]
    exact ⟨hsf, hpc, hh⟩
  subst htt
  unfold step
  by_cases ht : t < team
  swap
  · rw [if_neg ht]; exact ⟨hsf, hpc, hh⟩
  rw [if_pos ht]
  split
  · rw [if_pos hs]
    simp only [Function.update_same]
    exact ⟨hsf, Or.inr (Or.inr trivial), hh⟩
  · rename_i hc
    rcases hpc with h | h | h <;> rw [hc] at h <;> cases h
  · rename_i j hc
    rcases hpc with h | h | h <;> rw [hc] at h <;> cases h
  · rename_i j sol hc
    have hsol : sol = solution_i homes max pieces i := by
      rcases hpc with h | h | h <;> rw [hc] at h <;> cases h
      rfl
    have hgt : ¬ sol.sum > (s.workers t).solution_final.sum := by
      rw [hsf, hsol]; exact lt_irrefl _
    simp only [Function.update_same, if_neg hgt]
    exact ⟨hsf, Or.inr (Or.inl trivial), hh⟩
  · exact ⟨hsf, hpc, hh⟩

theorem run_after_hit (homes : Nat) (max : Int) (pieces : List Int) (team t i : Nat)
    (hist : List Nat) (sched : List Nat) :
    ∀ s : State, s.stop = true →
      (s.workers t).solution_final = solution_i homes max pieces i →
      ((s.workers t).pc = Pc.update i (solution_i homes max pieces i) ∨
        (s.workers t).pc = Pc.check ∨ (s.workers t).pc = Pc.done) →
      threadClaims s t = hist →
      (run homes max pieces team sched s).stop = true ∧
      ((run homes max pieces team sched s).workers t).solution_final
        = solution_i homes max pieces i ∧
      (((run homes max pieces team sched s).workers t).pc
          = Pc.update i (solution_i homes max pieces i) ∨
        ((run homes max pieces team sched s).workers t).pc = Pc.check ∨
        ((run homes max pieces team sched s).workers t).pc = Pc.done) ∧
      threadClaims (run homes max pieces team sched s) t = hist := by
  induction sched with
  | nil => intro s h1 h2 h3 h4; exact ⟨h1, h2, h3, h4⟩
  | cons t0 rest ih =>
    intro s h1 h2 h3 h4
    obtain ⟨k1, k2, k3, k4⟩ := step_after_hit homes max pieces team t i hist t0 s h1 h2 h3 h4
    exact ih _ k1 k2 k3 k4

/-- C14: when a thread evaluates a start whose candidate sum equals `max`, whatever its
previous `solution_final`, the candidate becomes its `solution_final` and `stop`
becomes true; and in every later state `stop` is still true, the thread's
`solution_final` (its slot) is still that candidate, the thread has claimed no further
start index and is never again about to claim or evaluate; scheduled, it leaves the
loop with that candidate in its slot. -/
theorem exact_hit_is_final (homes : Nat) (max : Int) (pieces : List Int) (team t i : Nat)
    (s : State) (ht : t < team) (hpc : (s.workers t).pc = Pc.eval i)
    (hhit : (solution_i homes max pieces i).sum = max) :
    ((step homes max pieces team t s).workers t).solution_final
      = solution_i homes max pieces i ∧
    (step homes max pieces team t s).stop = true ∧
    (∀ sched,
      (run homes max pieces team sched (step homes max pieces team t s)).stop = true ∧
      ((run homes max pieces team sched (step homes max pieces team t s)).workers t).solution_final
        = solution_i homes max pieces i ∧
      threadClaims (run homes max pieces team sched (step homes max pieces team t s)) t
        = threadClaims s t ∧
      ((run homes max pieces team sched (step homes max pieces team t s)).workers t).pc
        ≠ Pc.claim ∧
      (∀ j, ((run homes max pieces team sched (step homes max pieces team t s)).workers t).pc
        ≠ Pc.eval j) ∧
      ∃ more,
        ((run homes max pieces team (sched ++ more)
          (step homes max pieces team t s)).workers t).pc = Pc.done ∧
        ((run homes max pieces team (sched ++ more)
          (step homes max pieces team t s)).workers t).solution_final
          = solution_i homes max pieces i) := by
  have hstep : step homes max pieces team t s
      = ⟨s.idx, true, Function.update s.workers t
          ⟨Pc.update i (solution_i homes max pieces i), solution_i homes max pieces i⟩,
          s.claimed⟩ := by
    unfold step
    rw [if_pos ht]
    split <;> rename_i hc <;> rw [hpc] at hc <;> cases hc
    rw [if_pos hhit]
  have h1 : (step homes max pieces team t s).stop = true := by rw [hstep]
  have h2 : ((step homes max pieces team t s).workers t).solution_final
      = solution_i homes max pieces i := by
    rw [hstep]; simp only [Function.update_same]
  have h3 : ((step homes max pieces team t s).workers t).pc
      = Pc.update i (solution_i homes max pieces i) := by
    rw [hstep]; simp only [Function.update_same]
  have h4 : threadClaims (step homes max pieces team t s) t = threadClaims s t := by
    rw [hstep]; rfl
  refine ⟨h2, h1, ?_⟩
  intro sched
  obtain ⟨k1, k2, k3, k4⟩ := run_after_hit homes max pieces team t i (threadClaims s t) sched
    (step homes max pieces team t s) h1 h2 (Or.inl h3) h4
  refine ⟨k1, k2, k4, ?_, ?_, ?_⟩
  · intro hc
    rcases k3 with h | h | h <;> rw [hc] at h <;> cases h
  · intro j hc
    rcases k3 with h | h | h <;> rw [hc] at h <;> cases h
  · refine ⟨List.replicate (remaining homes
      (run homes max pieces team sched (step homes max pieces team t s)) t) t, ?_, ?_⟩
    · rw [run_append]
      exact run_alone_done homes max pieces team t ht _ _ (le_refl _)
    · exact (run_after_hit homes max pieces team t i (threadClaims s t) _
        (step homes max pieces team t s) h1 h2 (Or.inl h3) h4).2.1

theorem exact_hit_is_final_witness :
    (0 : Nat) < 2 ∧
    ((run 5 7 [3, 4, 9, 5, 2] 2
      [1, 1, 0, 0, 0, 0, 0, 0, 0, 0, 0, 0] initState).workers 0).pc = Pc.eval 3 ∧
    ((run 5 7 [3, 4, 9, 5, 2] 2
      [1, 1, 0, 0, 0, 0, 0, 0, 0, 0, 0, 0] initState).workers 0).solution_final = ⟨4, 1, 1⟩ ∧
    (solution_i 5 7 [3, 4, 9, 5, 2] 3).sum = 7 ∧
    ((step 5 7 [3, 4, 9, 5, 2] 2 0
        (run 5 7 [3, 4, 9, 5, 2] 2
          [1, 1, 0, 0, 0, 0, 0, 0, 0, 0, 0, 0] initState)).workers 0).solution_final
      = solution_i 5 7 [3, 4, 9, 5, 2] 3 ∧
    (step 5 7 [3, 4, 9, 5, 2] 2 0
      (run 5 7 [3, 4, 9, 5, 2] 2 [1, 1, 0, 0, 0, 0, 0, 0, 0, 0, 0, 0] initState)).stop = true :=
  ⟨by decide, by decide, by decide, by decide,
    (exact_hit_is_final 5 7 [3, 4, 9, 5, 2] 2 0 3
      (run 5 7 [3, 4, 9, 5, 2] 2 [1, 1, 0, 0, 0, 0, 0, 0, 0, 0, 0, 0] initState)
      (by decide) (by decide) (by decide)).1,
    (exact_hit_is_final 5 7 [3, 4, 9, 5, 2] 2 0 3
      (run 5 7 [3, 4, 9, 5, 2] 2 [1, 1, 0, 0, 0, 0, 0, 0, 0, 0, 0, 0] initState)
      (by decide) (by decide) (by decide)).2.1⟩

/-! ## Algebra of the global reduction -/

/-- When the reduction step replaces its accumulator, the new value is strictly
better than the old one. -/
theorem reduceStep_strict (b s : Solution) :
    reduceStep b s = b ∨ (reduceStep b s = s ∧ ¬ AtLeastAsGood b s) := by
  unfold reduceStep AtLeastAsGood
  by_cases h1 : s.sum ≥ b.sum
  · rw [if_pos h1]
    by_cases h2 : s.sum = b.sum ∧ s.start < b.start
    · rw [if_pos h2]
      exact Or.inr ⟨rfl, by omega⟩
    · rw [if_neg h2]
      by_cases h3 : s.sum > b.sum
      · rw [if_pos h3]
        exact Or.inr ⟨rfl, by omega⟩
      · rw [if_neg h3]
        exact Or.inl rfl
  · rw [if_neg h1]
    exact Or.inl rfl

theorem foldl_reduceStep_strict (l : List Solution) :
    ∀ b : Solution,
      l.foldl reduceStep b = b ∨
        (l.foldl reduceStep b ∈ l ∧ ¬ AtLeastAsGood b (l.foldl reduceStep b)) := by
  induction l with
  | nil => intro b; exact Or.inl rfl
  | cons x xs ih =>
    intro b
    rw [List.foldl_cons]
    have hgood := (reduceStep_spec b x).2.1
    rcases ih (reduceStep b x) with h | ⟨h1, h2⟩
    · rcases reduceStep_strict b x with k | ⟨k1, k2⟩
      · left; rw [h, k]
      · right
        rw [h, k1]
        exact ⟨List.mem_cons_self _ _, k2⟩
    · right
      refine ⟨List.mem_cons_of_mem _ h1, ?_⟩
      intro hb
      exact h2 (atLeastAsGood_trans _ _ _ hgood hb)

/-- An accumulator that is at least as good as the sentinel is left alone by a
sentinel slot. -/
theorem reduceStep_noSolution (b : Solution) (hb : AtLeastAsGood b noSolution) :
    reduceStep b noSolution = b := by
  rcases reduceStep_strict b noSolution with h | ⟨_, h⟩
  · exact h
  · exact absurd hb h

theorem foldl_reduceStep_filter (l : List Solution) :
    ∀ b : Solution, AtLeastAsGood b noSolution →
      (l.filter (fun x => decide (x ≠ noSolution))).foldl reduceStep b
        = l.foldl reduceStep b := by
  induction l with
  | nil => intro b _; rfl
  | cons x xs ih =>
    intro b hb
    by_cases hx : x = noSolution
    · subst hx
      have hf : (noSolution :: xs).filter (fun x => decide (x ≠ noSolution))
          = xs.filter (fun x => decide (x ≠ noSolution)) := by
        simp [List.filter_cons]
      rw [hf, List.foldl_cons, reduceStep_noSolution b hb]
      exact ih b hb
    · have hf : (x :: xs).filter (fun x => decide (x ≠ noSolution))
          = x :: xs.filter (fun x => decide (x ≠ noSolution)) := by
        simp [List.filter_cons, hx]
      rw [hf, List.foldl_cons, List.foldl_cons]
      exact ih _ (atLeastAsGood_trans _ _ _ (reduceStep_spec b x).2.1 hb)

theorem best_solution_filter (l : List Solution) :
    best_solution l = best_solution (l.filter (fun x => decide (x ≠ noSolution))) :=
  (foldl_reduceStep_filter l noSolution (atLeastAsGood_refl _)).symm

/-- C15: the sentinel is an identity of the global reduction, for arbitrary slots:
a block of any number of sentinel slots inserted at any position does not change the
reduced answer; the answer only depends on the non-sentinel slots in their order, so
two slot sequences that differ only by sentinel slots reduce to the same answer. -/
theorem sentinel_is_identity :
    (∀ (l₁ l₂ : List Solution) (n : Nat),
      best_solution (l₁ ++ List.replicate n noSolution ++ l₂) = best_solution (l₁ ++ l₂)) ∧
    (∀ l : List Solution,
      best_solution l = best_solution (l.filter (fun x => decide (x ≠ noSolution)))) ∧
    (∀ l l' : List Solution,
      l.filter (fun x => decide (x ≠ noSolution))
        = l'.filter (fun x => decide (x ≠ noSolution)) →
      best_solution l = best_solution l') := by
  have h3 : ∀ l l' : List Solution,
      l.filter (fun x => decide (x ≠ noSolution))
        = l'.filter (fun x => decide (x ≠ noSolution)) →
      best_solution l = best_solution l' := by
    intro l l' h
    rw [best_solution_filter l, best_solution_filter l', h]
  refine ⟨?_, best_solution_filter, h3⟩
  intro l₁ l₂ n
  apply h3
  have hrep : (List.replicate n noSolution).filter (fun x => decide (x ≠ noSolution)) = [] := by
    rw [List.filter_eq_nil_iff]
    intro a ha
    have := List.eq_of_mem_replicate ha
    simp [this]
  rw [List.filter_append, List.filter_append, hrep, List.append_nil, List.filter_append]

/-- C16: when any two slots with equal sum and equal start are the same triple,
reducing any permutation of the slots returns the same triple as reducing the slots
in their original order. -/
theorem reduction_order_independent (l l' : List Solution) (hperm : l.Perm l')
    (hdist : ∀ a, a ∈ l → ∀ b, b ∈ l → a.sum = b.sum → a.start = b.start → a = b) :
    best_solution l' = best_solution l := by
  obtain ⟨_, hg⟩ := best_solution_spec l
  obtain ⟨_, hg'⟩ := best_solution_spec l'
  have hs := foldl_reduceStep_strict l noSolution
  have hs' := foldl_reduceStep_strict l' noSolution
  have hn := (foldl_reduceStep_spec l noSolution).2.1
  have hn' := (foldl_reduceStep_spec l' noSolution).2.1
  change best_solution l = noSolution ∨
    (best_solution l ∈ l ∧ ¬ AtLeastAsGood noSolution (best_solution l)) at hs
  change best_solution l' = noSolution ∨
    (best_solution l' ∈ l' ∧ ¬ AtLeastAsGood noSolution (best_solution l')) at hs'
  change AtLeastAsGood (best_solution l) noSolution at hn
  change AtLeastAsGood (best_solution l') noSolution at hn'
  rcases hs with h | ⟨h1, h2⟩
  · rcases hs' with h' | ⟨h1', h2'⟩
    · rw [h, h']
    · exfalso
      have := hg _ (hperm.mem_iff.mpr h1')
      rw [h] at this
      exact h2' this
  · rcases hs' with h' | ⟨h1', h2'⟩
    · exfalso
      have := hg' _ (hperm.mem_iff.mp h1)
      rw [h'] at this
      exact h2 this
    · have hin : best_solution l' ∈ l := hperm.mem_iff.mpr h1'
      have k1 := hg _ hin
      have k2 := hg' _ (hperm.mem_iff.mp h1)
      unfold AtLeastAsGood at k1 k2
      exact hdist _ hin _ h1 (by omega) (by omega)

theorem reduction_order_independent_witness :
    List.Perm [⟨9, 4, 4⟩, noSolution, ⟨9, 0, 2⟩, ⟨7, 2, 3⟩]
      [⟨7, 2, 3⟩, ⟨9, 0, 2⟩, ⟨9, 4, 4⟩, noSolution] ∧
    best_solution [⟨9, 4, 4⟩, noSolution, ⟨9, 0, 2⟩, ⟨7, 2, 3⟩] = ⟨9, 0, 2⟩ ∧
    best_solution [⟨7, 2, 3⟩, ⟨9, 0, 2⟩, ⟨9, 4, 4⟩, noSolution]
      = best_solution [⟨9, 4, 4⟩, noSolution, ⟨9, 0, 2⟩, ⟨7, 2, 3⟩] :=
  ⟨by decide, by decide,
    reduction_order_independent [⟨9, 4, 4⟩, noSolution, ⟨9, 0, 2⟩, ⟨7, 2, 3⟩]
      [⟨7, 2, 3⟩, ⟨9, 0, 2⟩, ⟨9, 4, 4⟩, noSolution] (by decide) (by decide)⟩

/-! ## Range of the running total -/

theorem pieceAt_take (pieces : List Int) (homes k : Nat) (h : k < homes) :
    pieceAt (pieces.take homes) k = pieceAt pieces k := by
  simp [pieceAt, List.getD, List.getElem?_take, h]

theorem expandLoop_take (max : Int) (pieces : List Int) (homes : Nat) :
    ∀ (fuel : Nat) (c : Int) (k : Nat),
      expandLoop max (pieces.take homes) homes fuel c k
        = expandLoop max pieces homes fuel c k := by
  intro fuel
  induction fuel with
  | zero => intro c k; rfl
  | succ fuel ih =>
    intro c k
    by_cases hcond : c ≤ max ∧ (k : Int) < (homes : Int) - 1
    · simp only [expandLoop, hcond, and_self, if_true]
      rw [pieceAt_take pieces homes (k + 1) (by omega)]
      exact ih _ _
    · simp only [expandLoop, hcond, if_false]

/-- For start indices below `homes` the expansion only reads the first `homes` pieces. -/
theorem solution_i_take (homes : Nat) (max : Int) (pieces : List Int) (i : Nat)
    (hi : i < homes) :
    solution_i homes max (pieces.take homes) i = solution_i homes max pieces i := by
  have hlt := expandLoop_index_lt max pieces homes homes (pieceAt pieces i) i hi
  unfold solution_i
  rw [pieceAt_take pieces homes i hi]
  simp only [expandLoop_take]
  rw [pieceAt_take pieces homes _ hlt]

theorem step_take (homes : Nat) (max : Int) (pieces : List Int) (team t0 : Nat) (s : State)
    (h : ∀ t i, (s.workers t).pc = Pc.eval i → i < homes) :
    step homes max (pieces.take homes) team t0 s = step homes max pieces team t0 s := by
  unfold step
  by_cases ht : t0 < team
  · simp only [if_pos ht]
    cases hpc : (s.workers t0).pc with
    | eval i => simp only [solution_i_take homes max pieces i (h t0 i hpc)]
    | _ => rfl
  · simp only [if_neg ht]

/-- The parallel region only ever looks at the first `homes` pieces. -/
theorem run_take (homes : Nat) (max : Int) (pieces : List Int) (team : Nat)
    (sched : List Nat) :
    ∀ s : State, (∀ t i, (s.workers t).pc = Pc.eval i → i < homes) →
      run homes max (pieces.take homes) team sched s = run homes max pieces team sched s := by
  induction sched with
  | nil => intro s _; rfl
  | cons t0 rest ih =>
    intro s h
    have h1 := step_take homes max pieces team t0 s h
    have h2 := step_eval_lt homes max pieces team t0 s h
    change run homes max (pieces.take homes) team rest
        (step homes max (pieces.take homes) team t0 s)
      = run homes max pieces team rest (step homes max pieces team t0 s)
    rw [h1]
    exact ih _ h2

/-- C18: without `len(pieces) = homes` the two programs disagree. For `homes = 1`,
`max = 10`, `pieces = [1, 9]` (non-negative values, two pieces for one home) the serial
loop, which visits every element of `pieces`, returns `(9, 1, 1)`, whereas every
complete execution of the parallel region, which only hands out start indices below
`homes`, returns `(1, 0, 0)`; such complete executions exist. -/
theorem length_precondition_needed :
    (∀ p, p ∈ [1, 9] → (0 : Int) ≤ p) ∧ 1 < ([1, 9] : List Int).length ∧
    serial 1 10 [1, 9] = ⟨9, 1, 1⟩ ∧
    (∀ team num_threads sched, 1 ≤ team → team ≤ num_threads →
      finished team (run 1 10 [1, 9] team sched initState) →
      parallelAnswer num_threads (run 1 10 [1, 9] team sched initState) = ⟨1, 0, 0⟩ ∧
      parallelAnswer num_threads (run 1 10 [1, 9] team sched initState)
        ≠ serial 1 10 [1, 9]) ∧
    finished 2 (run 1 10 [1, 9] 2 [0, 1, 0, 1, 0, 0, 0, 0, 1] initState) ∧
    parallelAnswer 2 (run 1 10 [1, 9] 2 [0, 1, 0, 1, 0, 0, 0, 0, 1] initState) = ⟨1, 0, 0⟩ := by
  refine ⟨by decide, by decide, by decide, ?_, by decide, by decide⟩
  intro team num_threads sched hteam hslots hfin
  have htake := run_take 1 10 [1, 9] team sched initState (by
    intro t i hpc
    simp [initState] at hpc)
  have htk : List.take 1 ([1, 9] : List Int) = [1] := rfl
  rw [htk] at htake
  rw [← htake] at hfin ⊢
  have hans := parallel_firstBest 1 10 [1] (by decide) team num_threads hteam hslots sched hfin
    (serial 1 10 [1]) (serial_firstBest 1 10 [1] (by decide))
  rw [hans]
  exact ⟨by decide, by decide⟩

end CandySearch
